import Mathlib

/-!
Verification of the jsxn schema-driven record factory (src/jsxn.py).

The embedding models:
* `PVal` — Python values that can appear as record fields: JSON-style data
  (None, bool, int, str, dict, list) plus nested jsxn record instances.
* JSON serialization (`json.dumps`) and parsing (`json.loads`) over these
  values, at the level of character lists.
* `RtClass` — a generated jsxn class: its `__slots__` attribute (the declared
  field sequence), the set of slot descriptors available on instances,
  whether instances carry a `__dict__`, and its method table in MRO order.
* `Record` — an instance: a class plus the attribute store.
* The registry (`_cache`), class generation (`_Cache._generate`),
  instantiation (`_Cache._instantiate`), the factory accessors and the
  decorator merge path (`inject`).

Numbers are modelled as integers (Python ints); floating point values are
outside the embedding. `json.dumps` is modelled with `ensure_ascii=False`
style escaping (mandatory escapes only), which is parse-equivalent to the
default output.
-/

set_option autoImplicit false

namespace Jsxn

/-- Python values usable as jsxn record fields.  `precord` models a nested
jsxn instance: it carries the instance's declared field sequence
(its class's `__slots__`) and its attribute store. -/
inductive PVal where
  | pnull : PVal
  | pbool : Bool → PVal
  | pint : Int → PVal
  | pstr : String → PVal
  | plist : List PVal → PVal
  | pdict : List (String × PVal) → PVal
  | precord : List String → List (String × PVal) → PVal

/-- Errors raised by the library (all are `ValueError` / `TypeError` /
`AttributeError` / `KeyError` in the Python source; the constructors follow
the spec's error taxonomy). -/
inductive Err where
  /-- `ValueError('Only one unnamed argument can be passed')` -/
  | tooManyArguments : Err
  /-- `ValueError('String arguments must be valid JSON')` -/
  | invalidJSON : Err
  /-- `ValueError('Invalid type')` raised by `_Jsxn.__call__` -/
  | invalidSource : Err
  /-- `ValueError('Invalid type')` raised by `_Cache._generate` -/
  | invalidSchemaSource : Err
  /-- `AttributeError` (slot assignment of an undeclared name, missing
  attribute access, deleting an unregistered name) -/
  | attributeError : Err
  /-- `KeyError` (dict lookup / delete of a missing key) -/
  | keyError : Err
  /-- `TypeError` (json.dumps on a non-serializable object, class layout
  conflicts, non-string slot names) -/
  | typeError : Err
  deriving DecidableEq, Repr

/-- First-match association list lookup (Python dict lookup; jsxn registries
and attribute stores never hold duplicate keys). -/
def alookup {α : Type} : List (String × α) → String → Option α
  | [], _ => none
  | (k, v) :: tl, key => if k = key then some v else alookup tl key

/-- Python dict assignment `d[k] = v`: replace the value at the first
occurrence of the key, else append the pair. -/
def aset {α : Type} : List (String × α) → String → α → List (String × α)
  | [], key, val => [(key, val)]
  | (k, v) :: tl, key, val =>
      if k = key then (key, val) :: tl else (k, v) :: aset tl key val

/-- Python dict deletion `del d[k]`: drop the first occurrence of the key. -/
def aremove {α : Type} : List (String × α) → String → List (String × α)
  | [], _ => []
  | (k, v) :: tl, key => if k = key then tl else (k, v) :: aremove tl key

/-! ### JSON serialization (`json.dumps`) and parsing (`json.loads`)

Characters are handled at the `List Char` level.  `dumpsV` models
`json.dumps` (it returns `none` — a `TypeError` — when the value contains a
jsxn record, which is not JSON serializable); the parser functions model
`json.loads` on the integer/str/bool/null/array/object fragment. -/

/-- JSON whitespace. -/
def isWs (c : Char) : Bool := c = ' ' || c = '\t' || c = '\n' || c = '\r'

/-- ASCII decimal digit? -/
def isDigit (c : Char) : Bool := 48 ≤ c.toNat && c.toNat ≤ 57

/-- Lower-case hex digit emitted by a `\uXXXX` escape? -/
def isHex (c : Char) : Bool :=
  (48 ≤ c.toNat && c.toNat ≤ 57) || (97 ≤ c.toNat && c.toNat ≤ 102)

/-- The character for a decimal digit. -/
def digitChar (n : Nat) : Char := Char.ofNat (48 + n)

/-- The character for a hex digit (lower case, as CPython emits). -/
def hexDigitChar (n : Nat) : Char := Char.ofNat (if n < 10 then 48 + n else 87 + n)

/-- Numeric value of a hex digit character. -/
def hexVal (c : Char) : Nat := if c.toNat ≤ 57 then c.toNat - 48 else c.toNat - 87

/-- Decimal digits of `n`, most significant first.  Fuel-driven so the
definition is structural (any fuel above `n` is enough). -/
def natDigitsAux : Nat → Nat → List Char
  | 0, _ => []
  | fuel + 1, n =>
      if n < 10 then [digitChar n]
      else natDigitsAux fuel (n / 10) ++ [digitChar (n % 10)]

/-- Decimal representation of a natural number. -/
def natDigits (n : Nat) : List Char := natDigitsAux (n + 1) n

/-- Python `repr` of an integer: optional minus sign followed by digits. -/
def intChars : Int → List Char
  | .ofNat n => natDigits n
  | .negSucc n => '-' :: natDigits (n + 1)

/-- One character of a JSON string, escaped as `json.dumps` does.  (Modelled
with `ensure_ascii=False`-style escaping: only the mandatory escapes; the
default `\uXXXX` form for non-ASCII is parse-equivalent.) -/
def escChar (c : Char) : List Char :=
  if c = '"' then ['\\', '"']
  else if c = '\\' then ['\\', '\\']
  else if c = '\n' then ['\\', 'n']
  else if c = '\t' then ['\\', 't']
  else if c = '\r' then ['\\', 'r']
  else if c = '\x08' then ['\\', 'b']
  else if c = '\x0c' then ['\\', 'f']
  else if c.toNat < 32 then
    ['\\', 'u', '0', '0', hexDigitChar (c.toNat / 16), hexDigitChar (c.toNat % 16)]
  else [c]

/-- Escape a whole string body. -/
def escString : List Char → List Char
  | [] => []
  | c :: cs => escChar c ++ escString cs

/-- A JSON string literal: quote, escaped body, quote. -/
def dumpsStr (s : String) : List Char := '"' :: (escString s.data ++ ['"'])

mutual
/-- `json.dumps` on a Python value; `none` models the `TypeError` raised on a
jsxn record (an object json does not know how to serialize). -/
def dumpsV : PVal → Option (List Char)
  | .pnull => some ['n', 'u', 'l', 'l']
  | .pbool true => some ['t', 'r', 'u', 'e']
  | .pbool false => some ['f', 'a', 'l', 's', 'e']
  | .pint n => some (intChars n)
  | .pstr s => some (dumpsStr s)
  | .plist xs => (dumpsL xs).map (fun l => '[' :: (l ++ [']']))
  | .pdict xs => (dumpsD xs).map (fun l => '\x7b' :: (l ++ ['\x7d']))
  | .precord _ _ => none

/-- Array items, separated by `", "` (the default separator). -/
def dumpsL : List PVal → Option (List Char)
  | [] => some []
  | v :: tl => do
      let sv ← dumpsV v
      let stl ← dumpsL tl
      pure (sv ++ (if tl.isEmpty then [] else ',' :: ' ' :: []) ++ stl)

/-- Object entries `"key": value`, separated by `", "`. -/
def dumpsD : List (String × PVal) → Option (List Char)
  | [] => some []
  | (k, v) :: tl => do
      let sv ← dumpsV v
      let stl ← dumpsD tl
      pure (dumpsStr k ++ (':' :: ' ' :: sv) ++
            (if tl.isEmpty then [] else ',' :: ' ' :: []) ++ stl)
end

mutual
/-- Is the value JSON-representable data as a Python value: no nested jsxn
record anywhere, and every mapping has distinct keys (Python dicts cannot
hold duplicate keys)? -/
def isJsonV : PVal → Bool
  | .pnull => true
  | .pbool _ => true
  | .pint _ => true
  | .pstr _ => true
  | .plist xs => isJsonL xs
  | .pdict xs => isJsonD xs
  | .precord _ _ => false

def isJsonL : List PVal → Bool
  | [] => true
  | v :: tl => isJsonV v && isJsonL tl

def isJsonD : List (String × PVal) → Bool
  | [] => true
  | (k, v) :: tl => !(tl.map Prod.fst).contains k && isJsonV v && isJsonD tl
end

mutual
/-- Structural measure used as parser fuel. -/
def msizeV : PVal → Nat
  | .pnull => 1
  | .pbool _ => 1
  | .pint _ => 1
  | .pstr _ => 1
  | .plist xs => 1 + msizeL xs
  | .pdict xs => 1 + msizeD xs
  | .precord _ _ => 1

def msizeL : List PVal → Nat
  | [] => 1
  | v :: tl => 1 + msizeV v + msizeL tl

def msizeD : List (String × PVal) → Nat
  | [] => 1
  | (_, v) :: tl => 1 + msizeV v + msizeD tl
end

/-- Drop leading JSON whitespace. -/
def skipWs : List Char → List Char
  | [] => []
  | c :: cs => if isWs c then skipWs cs else c :: cs

/-- Consume a run of decimal digits, accumulating their value. -/
def parseNatLoop : List Char → Nat → Nat × List Char
  | [], acc => (acc, [])
  | c :: cs, acc =>
      if isDigit c then parseNatLoop cs (acc * 10 + (c.toNat - 48))
      else (acc, c :: cs)

/-- Parse an optionally signed decimal integer. -/
def parseInt : List Char → Option (Int × List Char)
  | [] => none
  | c :: cs =>
      if c = '-' then
        match cs with
        | [] => none
        | d :: _ =>
            if isDigit d then
              let p := parseNatLoop cs 0
              some (-(p.1 : Int), p.2)
            else none
      else if isDigit c then
        let p := parseNatLoop (c :: cs) 0
        some ((p.1 : Int), p.2)
      else none

/-- Parse a JSON string body (after the opening quote), undoing escapes;
returns the body characters and the input after the closing quote. -/
def parseStrBody : List Char → Option (List Char × List Char)
  | [] => none
  | c :: cs =>
      if c = '"' then some ([], cs)
      else if c = '\\' then
        match cs with
        | [] => none
        | e :: cs' =>
            if e = '"' then (parseStrBody cs').map (fun p => ('"' :: p.1, p.2))
            else if e = '\\' then (parseStrBody cs').map (fun p => ('\\' :: p.1, p.2))
            else if e = '/' then (parseStrBody cs').map (fun p => ('/' :: p.1, p.2))
            else if e = 'n' then (parseStrBody cs').map (fun p => ('\n' :: p.1, p.2))
            else if e = 't' then (parseStrBody cs').map (fun p => ('\t' :: p.1, p.2))
            else if e = 'r' then (parseStrBody cs').map (fun p => ('\r' :: p.1, p.2))
            else if e = 'b' then (parseStrBody cs').map (fun p => ('\x08' :: p.1, p.2))
            else if e = 'f' then (parseStrBody cs').map (fun p => ('\x0c' :: p.1, p.2))
            else if e = 'u' then
              match cs' with
              | h1 :: h2 :: h3 :: h4 :: cs'' =>
                  if isHex h1 && isHex h2 && isHex h3 && isHex h4 then
                    (parseStrBody cs'').map (fun p =>
                      (Char.ofNat (hexVal h1 * 4096 + hexVal h2 * 256 +
                                   hexVal h3 * 16 + hexVal h4) :: p.1, p.2))
                  else none
              | _ => none
            else none
      else (parseStrBody cs).map (fun p => (c :: p.1, p.2))

mutual
/-- Recursive-descent JSON value parser (fuel-driven). -/
def parseVal : Nat → List Char → Option (PVal × List Char)
  | 0, _ => none
  | fuel + 1, cs0 =>
      match skipWs cs0 with
      | [] => none
      | c :: cs =>
          if c = 'n' then
            match cs with
            | 'u' :: 'l' :: 'l' :: rest => some (.pnull, rest)
            | _ => none
          else if c = 't' then
            match cs with
            | 'r' :: 'u' :: 'e' :: rest => some (.pbool true, rest)
            | _ => none
          else if c = 'f' then
            match cs with
            | 'a' :: 'l' :: 's' :: 'e' :: rest => some (.pbool false, rest)
            | _ => none
          else if c = '"' then
            (parseStrBody cs).map (fun p => (.pstr (String.mk p.1), p.2))
          else if c = '[' then
            match skipWs cs with
            | [] => none
            | d :: cs' =>
                if d = ']' then some (.plist [], cs')
                else (parseItems fuel (d :: cs')).map (fun p => (.plist p.1, p.2))
          else if c = '\x7b' then
            match skipWs cs with
            | [] => none
            | d :: cs' =>
                if d = '\x7d' then some (.pdict [], cs')
                else (parseFields fuel (d :: cs')).map (fun p => (.pdict p.1, p.2))
          else if c = '-' || isDigit c then
            (parseInt (c :: cs)).map (fun p => (.pint p.1, p.2))
          else none

/-- Items of a non-empty JSON array, up to and including the closing
bracket. -/
def parseItems : Nat → List Char → Option (List PVal × List Char)
  | 0, _ => none
  | fuel + 1, cs => do
      let (v, cs1) ← parseVal fuel cs
      match skipWs cs1 with
      | [] => none
      | d :: cs2 =>
          if d = ',' then do
            let (tl, cs3) ← parseItems fuel cs2
            pure (v :: tl, cs3)
          else if d = ']' then pure ([v], cs2)
          else none

/-- Entries of a non-empty JSON object, up to and including the closing
brace. -/
def parseFields : Nat → List Char → Option (List (String × PVal) × List Char)
  | 0, _ => none
  | fuel + 1, cs =>
      match skipWs cs with
      | [] => none
      | q :: cs0 =>
          if q = '"' then do
            let (k, cs1) ← parseStrBody cs0
            match skipWs cs1 with
            | [] => none
            | col :: cs2 =>
                if col = ':' then do
                  let (v, cs3) ← parseVal fuel cs2
                  match skipWs cs3 with
                  | [] => none
                  | d :: cs4 =>
                      if d = ',' then do
                        let (tl, cs5) ← parseFields fuel cs4
                        pure ((String.mk k, v) :: tl, cs5)
                      else if d = '\x7d' then pure ([(String.mk k, v)], cs4)
                      else none
                else none
          else none
end

/-- `json.loads`: parse a complete JSON text (the whole input must be
consumed, up to trailing whitespace). -/
def jsonLoads (s : String) : Option PVal :=
  match parseVal (2 * s.data.length + 2) s.data with
  | some (v, rest) => if (skipWs rest).isEmpty then some v else none
  | none => none

/-! ### Generated classes, records, registry and factory -/

/-- An externally authored behavior bundle: a plain Python class passed to the
decorator.  `declSlots` is its `__slots__` if the class declares one,
`anns` the keys of its `__annotations__`, `methods` its methods (method
name → an identifier standing for the function object). -/
structure Bundle where
  declSlots : Option (List String)
  anns : List String
  methods : List (String × Nat)

/-- A generated jsxn class.
* `slotsAttr` — the value of the class's `__slots__` attribute: the declared
  field sequence used by `__init__`, `__iter__`, `__len__`, `__str__`.
* `descs` — the slot descriptor names available on instances (over the whole
  MRO); assignment to one of these succeeds.
* `hasDict` — whether instances carry a `__dict__` (a base class without
  `__slots__` contributes one), making arbitrary attribute assignment legal.
* `methods` — user methods in MRO lookup order (first match wins). -/
structure RtClass where
  slotsAttr : List String
  descs : List String
  hasDict : Bool
  methods : List (String × Nat)

/-- A jsxn instance: its class and its attribute store (slot storage and
instance dict are merged into one name → value map, which has identical
lookup/assignment semantics). -/
structure Record where
  cls : RtClass
  attrs : List (String × PVal)

/-- `setattr(self, k, v)`: succeeds when `k` is a slot descriptor or the
instance has a `__dict__`; otherwise `AttributeError`. -/
def setattrR (r : Record) (k : String) (v : PVal) : Except Err Record :=
  if r.cls.descs.contains k || r.cls.hasDict then
    .ok { r with attrs := aset r.attrs k v }
  else .error .attributeError

/-- `getattr(self, k)` for a data attribute: `AttributeError` when unset. -/
def getattrR (r : Record) (k : String) : Except Err PVal :=
  match alookup r.attrs k with
  | some v => .ok v
  | none => .error .attributeError

/-- `for key, value in d.items(): setattr(self, key, value)`. -/
def assignPairs : Record → List (String × PVal) → Except Err Record
  | r, [] => .ok r
  | r, (k, v) :: tl => do
      let r' ← setattrR r k v
      assignPairs r' tl

/-- `_Jsxn.__iter__` of a source record: yield `(attr, getattr(self, attr))`
for each name in `__slots__`; an unset slot raises `AttributeError`. -/
def iterPairs : List String → List (String × PVal) → Except Err (List (String × PVal))
  | [], _ => .ok []
  | f :: tl, fields =>
      match alookup fields f with
      | some v => (iterPairs tl fields).map (fun l => (f, v) :: l)
      | none => .error .attributeError

/-- A construction/population argument of `_Jsxn.__call__` and
`_Cache._generate`:
* `kw pairs` — no positional argument, keyword fields (possibly none);
* `val v` — a single positional value;
* `bundle b` — a single positional argument that is a class object;
* `many` — more than one positional argument. -/
inductive Arg where
  | kw : List (String × PVal) → Arg
  | val : PVal → Arg
  | bundle : Bundle → Arg
  | many : Arg

/-- `_Jsxn.__call__`: populate the record from the argument. -/
def populate (r : Record) : Arg → Except Err Record
  | .many => .error .tooManyArguments
  | .kw pairs => assignPairs r pairs
  | .bundle _ => .error .invalidSource
  | .val v =>
      match v with
      | .pstr s =>
          match jsonLoads s with
          | none => .error .invalidJSON
          | some (.pdict pairs) => assignPairs r pairs
          | some _ => .error .invalidSource
      | .pdict pairs => assignPairs r pairs
      | .precord slots fields => do
          let pairs ← iterPairs slots fields
          assignPairs r pairs
      | _ => .error .invalidSource

/-- The default-fill loop of `_Jsxn.__init__`: set every still-unset name of
`__slots__` to `None`. -/
def fillMissing : Record → List String → Except Err Record
  | r, [] => .ok r
  | r, f :: tl =>
      if (alookup r.attrs f).isSome then fillMissing r tl
      else do
        let r' ← setattrR r f .pnull
        fillMissing r' tl

/-- `_Jsxn.__init__`: populate from the argument, then null-fill the
remaining declared fields. -/
def construct (cls : RtClass) (a : Arg) : Except Err Record := do
  let r ← populate { cls := cls, attrs := [] } a
  fillMissing r cls.slotsAttr

/-- `_Jsxn.__iter__` on a record: the `(field, value)` pairs in declared
order. -/
def iterateR (r : Record) : Except Err (List (String × PVal)) :=
  iterPairs r.cls.slotsAttr r.attrs

/-- The Python `dict` constructor over a pair sequence: sequential insertion
(first occurrence keeps its position, a later duplicate overwrites the
value). -/
def dictOf (l : List (String × PVal)) : List (String × PVal) :=
  l.foldl (fun d kv => aset d kv.1 kv.2) []

/-- `_Jsxn.__str__`: `json.dumps(dict(self))`; a field value that
`json.dumps` cannot serialize (a nested record) raises `TypeError`. -/
def toText (r : Record) : Except Err String := do
  let pairs ← iterateR r
  match dumpsV (.pdict (dictOf pairs)) with
  | some cs => .ok (String.mk cs)
  | none => .error .typeError

/-- Method dispatch on a record's class: first match in MRO order. -/
def methodOf (cls : RtClass) (m : String) : Option Nat := alookup cls.methods m

/-- The `_cache` registry: schema name → generated class. -/
abbrev Registry := List (String × RtClass)

/-- Extract the string items of a parsed JSON array for use as `__slots__`
(`type()` raises `TypeError` when a slot name is not a string). -/
def strList : List PVal → Option (List String)
  | [] => some []
  | .pstr s :: tl => (strList tl).map (fun l => s :: l)
  | _ => none

/-- Slot derivation of `_Cache._generate` for a single positional value:
JSON text is parsed first; a dict contributes its keys, an existing record
its `__slots__`, a list its items; anything else is a `ValueError`. -/
def valSlotsParsed : PVal → Except Err (List String)
  | .pdict pairs => .ok (pairs.map Prod.fst)
  | .precord slots _ => .ok slots
  | .plist xs =>
      match strList xs with
      | some l => .ok l
      | none => .error .typeError
  | _ => .error .invalidSchemaSource

/-- Slot derivation for the positional value, including the JSON-text case. -/
def valSlots : PVal → Except Err (List String)
  | .pstr s =>
      match jsonLoads s with
      | none => .error .invalidJSON
      | some j => valSlotsParsed j
  | v => valSlotsParsed v

/-- `_Cache._generate`: derive `__slots__` from the argument, synthesize the
class (with `_Jsxn` behavior), store it under `name` and return it. -/
def generate (reg : Registry) (name : String) (a : Arg) :
    Except Err (Registry × RtClass) :=
  match a with
  | .many => .error .tooManyArguments
  | .kw pairs =>
      let slots := pairs.map Prod.fst
      let cls : RtClass :=
        { slotsAttr := slots, descs := slots, hasDict := false, methods := [] }
      .ok (aset reg name cls, cls)
  | .bundle b =>
      -- inherit = (b, _Jsxn); slots from b.__slots__ if declared, else from
      -- b.__annotations__; a base without __slots__ contributes a __dict__
      let slots := match b.declSlots with | some l => l | none => b.anns
      let cls : RtClass :=
        { slotsAttr := slots,
          descs := slots ++ (match b.declSlots with | some l => l | none => []),
          hasDict := b.declSlots.isNone,
          methods := b.methods }
      .ok (aset reg name cls, cls)
  | .val v => do
      let slots ← valSlots v
      let cls : RtClass :=
        { slotsAttr := slots, descs := slots, hasDict := false, methods := [] }
      .ok (aset reg name cls, cls)

/-- `_Cache._instantiate`: generate (and cache) the class, then instantiate
it with the same arguments.  A construction failure leaves the newly cached
class in the registry. -/
def instantiate (reg : Registry) (name : String) (a : Arg) :
    Registry × Except Err Record :=
  match generate reg name a with
  | .error e => (reg, .error e)
  | .ok (reg', cls) => (reg', construct cls a)

/-- Result of `_JsxnFactory.__getitem__`: the cached class, or the curried
`_Cache._instantiate` bound to the name. -/
inductive Resolved where
  | schema : RtClass → Resolved
  | deferred : String → Resolved

/-- `_JsxnFactory.__getitem__` / `__getattr__`. -/
def factoryGetitem (reg : Registry) (name : String) : Resolved :=
  match alookup reg name with
  | some cls => .schema cls
  | none => .deferred name

/-- The registry lookup `_cache[name]` itself (a dict subscript): `KeyError`
when the name is absent. -/
def cacheGetitem (reg : Registry) (name : String) : Except Err RtClass :=
  match alookup reg name with
  | some cls => .ok cls
  | none => .error .keyError

/-- `_JsxnFactory.__delattr__`: delete the cached class; `AttributeError`
when the name is absent. -/
def factoryDelattr (reg : Registry) (name : String) : Except Err Registry :=
  match alookup reg name with
  | some _ => .ok (aremove reg name)
  | none => .error .attributeError

/-- Does the bundle class carry a nonempty slot layout of its own?  (Used for
`type()`'s multiple-bases layout-conflict check.) -/
def bundleLayout (b : Bundle) : Bool :=
  match b.declSlots with
  | some (_ :: _) => true
  | _ => false

/-- The decorator merge path `inject` (plus the `_generate` call it makes):
when `name` is cached, build `type(name, (og, cls), {'__slots__': og.__slots__})`
and feed it back through `_generate`; when both the cached class and the
bundle have nonempty slot layouts, `type()` raises a layout-conflict
`TypeError`.  When `name` is not cached, the bundle goes to `_generate`
directly. -/
def inject (reg : Registry) (name : String) (b : Bundle) :
    Except Err (Registry × RtClass) :=
  match alookup reg name with
  | some og =>
      if !og.descs.isEmpty && bundleLayout b then .error .typeError
      else
        -- mid = type(name, (og, b), {'__slots__': og.__slots__}):
        -- its __slots__ attribute is og's; og's methods precede b's in MRO
        let mid : RtClass :=
          { slotsAttr := og.slotsAttr,
            descs := og.slotsAttr ++ og.descs ++
              (match b.declSlots with | some l => l | none => []),
            hasDict := og.hasDict || b.declSlots.isNone,
            methods := og.methods ++ b.methods }
        -- _generate(name, mid): mid is a _Jsxn subclass, so inherit = (mid,)
        -- and slots = mid.__slots__
        let fin : RtClass :=
          { slotsAttr := mid.slotsAttr,
            descs := mid.slotsAttr ++ mid.descs,
            hasDict := mid.hasDict,
            methods := mid.methods }
        .ok (aset reg name fin, fin)
  | none => generate reg name (.bundle b)

/-! ### Concrete fixtures used by witnesses and counterexamples -/

/-- A registered schema class with fields `x`, `y` and a method `m`
(implementation tag 1), as produced by decorating a bundle. -/
def ogXY : RtClass :=
  { slotsAttr := ["x", "y"], descs := ["x", "y"], hasDict := false,
    methods := [("m", 1)] }

/-- A registry holding `ogXY` under the name "A". -/
def regXY : Registry := [("A", ogXY)]

/-- A behavior bundle declaring fields `y`, `z` via annotations, with methods
`m` (implementation tag 2) and `p` (implementation tag 3). -/
def bundleYZ : Bundle :=
  { declSlots := none, anns := ["y", "z"], methods := [("m", 2), ("p", 3)] }

/-- The merged class `inject regXY "A" bundleYZ` produces. -/
def mergedXY : RtClass :=
  { slotsAttr := ["x", "y"], descs := ["x", "y", "x", "y", "x", "y"],
    hasDict := true, methods := [("m", 1), ("m", 2), ("p", 3)] }

/-- A plain-path schema class with the single field `x`. -/
def clsX : RtClass :=
  { slotsAttr := ["x"], descs := ["x"], hasDict := false, methods := [] }

/-- A plain-path schema class with fields `x`, `y` and no behavior. -/
def clsXY0 : RtClass :=
  { slotsAttr := ["x", "y"], descs := ["x", "y"], hasDict := false, methods := [] }


@[simp] theorem alookup_nil {α : Type} (key : String) :
    alookup ([] : List (String × α)) key = none := rfl

@[simp] theorem alookup_cons {α : Type} (k : String) (v : α)
    (tl : List (String × α)) (key : String) :
    alookup ((k, v) :: tl) key = if k = key then some v else alookup tl key := rfl

@[simp] theorem aset_nil {α : Type} (key : String) (val : α) :
    aset ([] : List (String × α)) key val = [(key, val)] := rfl

@[simp] theorem aset_cons {α : Type} (k : String) (v : α)
    (tl : List (String × α)) (key : String) (val : α) :
    aset ((k, v) :: tl) key val =
      if k = key then (key, val) :: tl else (k, v) :: aset tl key val := rfl

theorem alookup_aset_self {α : Type} (l : List (String × α)) (key : String) (val : α) :
    alookup (aset l key val) key = some val := by
  induction l with
  | nil => simp [aset, alookup]
  | cons hd tl ih =>
    obtain ⟨k, v⟩ := hd
    by_cases h : k = key <;> simp [aset, alookup, h, ih]

theorem alookup_aset_ne {α : Type} (l : List (String × α)) (key key' : String) (val : α)
    (h : key ≠ key') : alookup (aset l key val) key' = alookup l key' := by
  induction l with
  | nil => simp [aset, alookup, h]
  | cons hd tl ih =>
    obtain ⟨k, v⟩ := hd
    by_cases hk : k = key
    · subst hk; simp [aset, alookup, h]
    · simp only [aset, if_neg hk, alookup_cons]
      by_cases hk' : k = key' <;> simp [hk', ih]

/-! ### Helper lemmas about the attribute store and construction -/

@[simp] theorem okBind {α β : Type} (a : α) (f : α → Except Err β) :
    (Except.ok a >>= f : Except Err β) = f a := rfl

theorem alookup_aremove_self {α : Type} (l : List (String × α)) (key : String)
    (hnd : (l.map Prod.fst).Nodup) : alookup (aremove l key) key = none := by
  induction l with
  | nil => simp [aremove]
  | cons hd tl ih =>
    obtain ⟨k, v⟩ := hd
    simp only [List.map_cons, List.nodup_cons] at hnd
    by_cases h : k = key
    · subst h
      simp only [aremove, if_pos rfl]
      cases hlk : alookup tl k with
      | none => exact hlk
      | some w =>
        exfalso
        apply hnd.1
        clear ih hnd
        induction tl with
        | nil => simp [alookup] at hlk
        | cons hd' tl' ih' =>
          obtain ⟨k', v'⟩ := hd'
          simp only [alookup_cons] at hlk
          by_cases hk' : k' = k
          · subst hk'; simp
          · simp only [if_neg hk'] at hlk
            simp [ih' hlk]
    · simp [aremove, h, alookup, ih hnd.2]

theorem alookup_mem {α : Type} {l : List (String × α)} {key : String} {v : α}
    (h : alookup l key = some v) : key ∈ l.map Prod.fst := by
  induction l with
  | nil => simp [alookup] at h
  | cons hd tl ih =>
    obtain ⟨k, w⟩ := hd
    simp only [alookup_cons] at h
    by_cases hk : k = key
    · subst hk; simp
    · simp only [if_neg hk] at h
      simp [ih h]

theorem alookup_perm {α : Type} (P Q : List (String × α)) (hperm : P.Perm Q)
    (hnd : (P.map Prod.fst).Nodup) (f : String) : alookup P f = alookup Q f := by
  induction hperm with
  | nil => rfl
  | cons x l ih =>
    obtain ⟨k, v⟩ := x
    simp only [List.map_cons, List.nodup_cons] at hnd
    simp only [alookup_cons]
    by_cases hk : k = f <;> simp [hk, ih hnd.2]
  | swap x y l =>
    obtain ⟨k1, v1⟩ := x
    obtain ⟨k2, v2⟩ := y
    simp only [List.map_cons, List.nodup_cons, List.mem_cons] at hnd
    have hne : k2 ≠ k1 := by intro h; exact hnd.1 (by simp [h])
    simp only [alookup_cons]
    by_cases h1 : k1 = f
    · subst h1; simp [hne]
    · by_cases h2 : k2 = f <;> simp [h1, h2]
  | trans p1 p2 ih1 ih2 =>
    rename_i l1 l2 l3
    have hnd2 : (l2.map Prod.fst).Nodup := ((p1.map Prod.fst).nodup_iff).mp hnd
    rw [ih1 hnd, ih2 hnd2]

@[simp] theorem setattrR_cls (r : Record) (k : String) (v : PVal) (r' : Record)
    (h : setattrR r k v = .ok r') : r'.cls = r.cls := by
  unfold setattrR at h
  split at h
  · cases h; rfl
  · cases h

theorem setattrR_ok (r : Record) (k : String) (v : PVal)
    (h : r.cls.descs.contains k || r.cls.hasDict) :
    setattrR r k v = .ok { r with attrs := aset r.attrs k v } := by
  unfold setattrR
  rw [h]
  simp

theorem setattrR_err (r : Record) (k : String) (v : PVal)
    (hd : r.cls.hasDict = false) (hk : r.cls.descs.contains k = false) :
    setattrR r k v = .error .attributeError := by
  unfold setattrR
  rw [hk, hd]
  simp

theorem assignPairs_cls (P : List (String × PVal)) (r r' : Record)
    (h : assignPairs r P = .ok r') : r'.cls = r.cls := by
  induction P generalizing r with
  | nil => cases h; rfl
  | cons hd tl ih =>
    obtain ⟨k, v⟩ := hd
    simp only [assignPairs] at h
    cases hset : setattrR r k v with
    | error e => rw [hset] at h; cases h
    | ok r1 =>
      rw [hset] at h
      simp only [okBind] at h
      rw [ih r1 h, setattrR_cls r k v r1 hset]

theorem assignPairs_ok (P : List (String × PVal)) (r : Record)
    (h : ∀ p ∈ P, r.cls.descs.contains p.1 || r.cls.hasDict) :
    ∃ r', assignPairs r P = .ok r' ∧ r'.cls = r.cls := by
  induction P generalizing r with
  | nil => exact ⟨r, rfl, rfl⟩
  | cons hd tl ih =>
    obtain ⟨k, v⟩ := hd
    have hk := h (k, v) (by simp)
    have hset := setattrR_ok r k v hk
    have hcls : ({ r with attrs := aset r.attrs k v } : Record).cls = r.cls := rfl
    obtain ⟨r', hr', hc⟩ := ih { r with attrs := aset r.attrs k v }
      (fun p hp => by rw [hcls]; exact h p (by simp [hp]))
    exact ⟨r', by simp only [assignPairs, hset, okBind, hr'], by rw [hc]⟩

theorem assignPairs_err (P : List (String × PVal)) (r : Record)
    (hd : r.cls.hasDict = false)
    (hbad : ∃ p ∈ P, r.cls.descs.contains p.1 = false) :
    assignPairs r P = .error .attributeError := by
  induction P generalizing r with
  | nil => simp at hbad
  | cons hd' tl ih =>
    obtain ⟨k, v⟩ := hd'
    simp only [assignPairs]
    by_cases hk : r.cls.descs.contains k = false
    · rw [setattrR_err r k v hd hk]; rfl
    · have hk' : r.cls.descs.contains k = true := by
        revert hk; cases r.cls.descs.contains k <;> simp
      have hset := setattrR_ok r k v (by rw [hk']; rfl)
      rw [hset]
      simp only [okBind]
      apply ih
      · exact hd
      · obtain ⟨p, hp, hpbad⟩ := hbad
        rcases List.mem_cons.mp hp with h | h
        · exfalso; rw [h] at hpbad; rw [hpbad] at hk'; cases hk'
        · exact ⟨p, h, hpbad⟩

theorem assignPairs_lookup (P : List (String × PVal)) (r r' : Record)
    (hnd : (P.map Prod.fst).Nodup) (h : assignPairs r P = .ok r') (f : String) :
    alookup r'.attrs f =
      match alookup P f with
      | some v => some v
      | none => alookup r.attrs f := by
  induction P generalizing r with
  | nil =>
    simp only [assignPairs, Except.ok.injEq] at h
    subst h
    cases halk : alookup r.attrs f <;> simp [alookup, halk]
  | cons hd tl ih =>
    obtain ⟨k, v⟩ := hd
    simp only [List.map_cons, List.nodup_cons] at hnd
    simp only [assignPairs] at h
    cases hset : setattrR r k v with
    | error e => rw [hset] at h; cases h
    | ok r1 =>
      rw [hset] at h
      simp only [okBind] at h
      have h1 := ih r1 hnd.2 h
      have hattrs : r1.attrs = aset r.attrs k v := by
        unfold setattrR at hset
        split at hset
        · cases hset; rfl
        · cases hset
      by_cases hk : k = f
      · subst hk
        have htl : alookup tl k = none := by
          cases hlk : alookup tl k with
          | none => rfl
          | some w => exact absurd (alookup_mem hlk) hnd.1
        simp only [alookup_cons, if_pos rfl]
        rw [h1, htl, hattrs, alookup_aset_self]
        simp
      · simp only [alookup_cons, if_neg hk]
        rw [h1, hattrs, alookup_aset_ne r.attrs k f v hk]

theorem fillMissing_cls (fs : List String) (r r' : Record)
    (h : fillMissing r fs = .ok r') : r'.cls = r.cls := by
  induction fs generalizing r with
  | nil => cases h; rfl
  | cons f tl ih =>
    simp only [fillMissing] at h
    split at h
    · exact ih r h
    · cases hset : setattrR r f .pnull with
      | error e => rw [hset] at h; cases h
      | ok r1 =>
        rw [hset] at h
        simp only [okBind] at h
        rw [ih r1 h, setattrR_cls r f .pnull r1 hset]

theorem fillMissing_ok (fs : List String) (r : Record)
    (h : ∀ f ∈ fs, r.cls.descs.contains f || r.cls.hasDict) :
    ∃ r', fillMissing r fs = .ok r' ∧ r'.cls = r.cls := by
  induction fs generalizing r with
  | nil => exact ⟨r, rfl, rfl⟩
  | cons f tl ih =>
    simp only [fillMissing]
    by_cases hs : (alookup r.attrs f).isSome
    · simp only [hs, if_pos]
      exact ih r (fun g hg => h g (by simp [hg]))
    · simp only [hs, Bool.false_eq_true, if_neg, not_false_iff]
      have hset := setattrR_ok r f .pnull (h f (by simp))
      rw [hset]
      simp only [okBind]
      obtain ⟨r', hr', hc⟩ := ih { r with attrs := aset r.attrs f .pnull }
        (fun g hg => h g (by simp [hg]))
      exact ⟨r', hr', hc⟩

theorem fillMissing_lookup (fs : List String) (r r' : Record)
    (h : fillMissing r fs = .ok r') (f : String) :
    alookup r'.attrs f =
      match alookup r.attrs f with
      | some v => some v
      | none => if f ∈ fs then some .pnull else none := by
  induction fs generalizing r with
  | nil =>
    simp only [fillMissing, Except.ok.injEq] at h
    subst h
    cases halk : alookup r.attrs f <;> simp [halk]
  | cons g tl ih =>
    simp only [fillMissing] at h
    split at h
    · rename_i hsome
      have h1 := ih r h
      by_cases hgf : f = g
      · subst hgf
        cases halk : alookup r.attrs f with
        | some v => rw [h1, halk]
        | none => rw [halk] at hsome; simp at hsome
      · rw [h1]
        cases halk : alookup r.attrs f with
        | some v => rfl
        | none => simp [List.mem_cons, hgf]
    · rename_i hnone
      cases hset : setattrR r g .pnull with
      | error e => rw [hset] at h; cases h
      | ok r1 =>
        rw [hset] at h
        simp only [okBind] at h
        have h1 := ih r1 h
        have hattrs : r1.attrs = aset r.attrs g .pnull := by
          unfold setattrR at hset
          split at hset
          · cases hset; rfl
          · cases hset
        by_cases hgf : f = g
        · subst hgf
          have : alookup r.attrs f = none := by
            cases halk : alookup r.attrs f with
            | none => rfl
            | some v => rw [halk] at hnone; simp at hnone
          rw [h1, hattrs, alookup_aset_self, this]
          simp
        · rw [h1, hattrs, alookup_aset_ne r.attrs g f .pnull (fun hh => hgf hh.symm)]
          cases halk : alookup r.attrs f with
          | some v => rfl
          | none => simp [List.mem_cons, hgf]

theorem iterPairs_canon (slots : List String) (fields : List (String × PVal))
    (h : ∀ f ∈ slots, (alookup fields f).isSome) :
    iterPairs slots fields =
      .ok (slots.map (fun f => (f, (alookup fields f).getD .pnull))) := by
  induction slots with
  | nil => rfl
  | cons f tl ih =>
    have hf := h f (by simp)
    cases halk : alookup fields f with
    | none => rw [halk] at hf; simp at hf
    | some v =>
      simp only [iterPairs, halk, List.map_cons]
      rw [ih (fun g hg => h g (by simp [hg]))]
      simp [halk, Except.map]

theorem iterPairs_congr (slots : List String) (A B : List (String × PVal))
    (h : ∀ f ∈ slots, alookup A f = alookup B f) :
    iterPairs slots A = iterPairs slots B := by
  induction slots with
  | nil => rfl
  | cons f tl ih =>
    simp only [iterPairs]
    rw [h f (by simp), ih (fun g hg => h g (by simp [hg]))]

theorem populate_cls (r : Record) (a : Arg) (r' : Record)
    (h : populate r a = .ok r') : r'.cls = r.cls := by
  cases a with
  | many => cases h
  | kw pairs => exact assignPairs_cls pairs r r' h
  | bundle b => cases h
  | val v =>
    cases v with
    | pstr s =>
      simp only [populate] at h
      cases hj : jsonLoads s with
      | none => rw [hj] at h; cases h
      | some j =>
        rw [hj] at h
        cases j with
        | pdict pairs => exact assignPairs_cls pairs r r' h
        | pnull => cases h
        | pbool b => cases h
        | pint n => cases h
        | pstr s' => cases h
        | plist xs => cases h
        | precord sl fs => cases h
    | pdict pairs => exact assignPairs_cls pairs r r' h
    | precord slots fields =>
      simp only [populate] at h
      cases hit : iterPairs slots fields with
      | error e => rw [hit] at h; cases h
      | ok pairs =>
        rw [hit] at h
        simp only [okBind] at h
        exact assignPairs_cls pairs r r' h
    | pnull => cases h
    | pbool b => cases h
    | pint n => cases h
    | plist xs => cases h

theorem construct_cls (cls : RtClass) (a : Arg) (r : Record)
    (h : construct cls a = .ok r) : r.cls = cls := by
  simp only [construct] at h
  cases hp : populate { cls := cls, attrs := [] } a with
  | error e => rw [hp] at h; cases h
  | ok r1 =>
    rw [hp] at h
    simp only [okBind] at h
    rw [fillMissing_cls cls.slotsAttr r1 r h, populate_cls _ a r1 hp]

theorem construct_assigned (cls : RtClass) (a : Arg) (r : Record)
    (h : construct cls a = .ok r) :
    ∀ f ∈ cls.slotsAttr, (alookup r.attrs f).isSome := by
  intro f hf
  simp only [construct] at h
  cases hp : populate { cls := cls, attrs := [] } a with
  | error e => rw [hp] at h; cases h
  | ok r1 =>
    rw [hp] at h
    simp only [okBind] at h
    have := fillMissing_lookup cls.slotsAttr r1 r h f
    rw [this]
    cases halk : alookup r1.attrs f <;> simp [halk, hf]

theorem construct_pdict_lookup (cls : RtClass) (P : List (String × PVal)) (r : Record)
    (hnd : (P.map Prod.fst).Nodup)
    (h : construct cls (.val (.pdict P)) = .ok r) (f : String) :
    alookup r.attrs f =
      match alookup P f with
      | some v => some v
      | none => if f ∈ cls.slotsAttr then some .pnull else none := by
  simp only [construct] at h
  cases hp : populate { cls := cls, attrs := [] } (.val (.pdict P)) with
  | error e => rw [hp] at h; cases h
  | ok r1 =>
    rw [hp] at h
    simp only [okBind] at h
    have hfill := fillMissing_lookup cls.slotsAttr r1 r h f
    have hassign := assignPairs_lookup P { cls := cls, attrs := [] } r1 hnd hp f
    rw [hfill, hassign]
    cases halk : alookup P f <;> simp [alookup]

theorem construct_pdict_ok (cls : RtClass) (P : List (String × PVal))
    (hkeys : ∀ p ∈ P, (cls.descs.contains p.1 || cls.hasDict) = true)
    (hslots : ∀ f ∈ cls.slotsAttr, (cls.descs.contains f || cls.hasDict) = true) :
    ∃ r, construct cls (.val (.pdict P)) = .ok r ∧ r.cls = cls := by
  have hr0 : ({ cls := cls, attrs := [] } : Record).cls = cls := rfl
  obtain ⟨r1, hr1, hc1⟩ := assignPairs_ok P { cls := cls, attrs := [] }
    (fun p hp => by rw [hr0]; exact hkeys p hp)
  obtain ⟨r, hr, hc⟩ := fillMissing_ok cls.slotsAttr r1
    (fun f hf => by rw [hc1, hr0]; exact hslots f hf)
  refine ⟨r, ?_, by rw [hc, hc1, hr0]⟩
  simp only [construct, populate, hr1, okBind]
  exact hr

theorem generate_eq (reg : Registry) (name : String) (a : Arg)
    (reg' : Registry) (cls : RtClass)
    (h : generate reg name a = .ok (reg', cls)) : reg' = aset reg name cls := by
  cases a with
  | many => cases h
  | kw pairs =>
    simp only [generate, Except.ok.injEq, Prod.mk.injEq] at h
    rw [← h.1, ← h.2]
  | bundle b =>
    simp only [generate, Except.ok.injEq, Prod.mk.injEq] at h
    rw [← h.1, ← h.2]
  | val v =>
    simp only [generate] at h
    cases hs : valSlots v with
    | error e => rw [hs] at h; cases h
    | ok slots =>
      rw [hs] at h
      simp only [okBind, Except.ok.injEq, Prod.mk.injEq] at h
      rw [← h.1, ← h.2]

theorem strList_map_pstr (fields : List String) :
    strList (fields.map PVal.pstr) = some fields := by
  induction fields with
  | nil => rfl
  | cons f tl ih => simp [strList, ih]

theorem alookup_append {α : Type} (l1 l2 : List (String × α)) (f : String) :
    alookup (l1 ++ l2) f =
      match alookup l1 f with
      | some v => some v
      | none => alookup l2 f := by
  induction l1 with
  | nil => simp [alookup]
  | cons hd tl ih =>
    obtain ⟨k, v⟩ := hd
    by_cases hk : k = f <;> simp [alookup, hk, ih]

/-! ### Claims -/

/-- C1 counterexample: extending the registered schema "A" (fields `[x, y]`)
with a bundle declaring fields `[y, z]` does not yield the field order
`[x, y, z]` claimed by the spec: the merged class's field sequence is
`[x, y]`. -/
theorem C1_counterexample :
    (inject regXY "A" bundleYZ).toOption.map (fun p => p.2.slotsAttr) = some ["x", "y"] ∧
    (inject regXY "A" bundleYZ).toOption.map (fun p => p.2.slotsAttr) ≠ some ["x", "y", "z"] := by
  constructor
  · rfl
  · decide

/-- C1 (amended): merging a behavior bundle into a registered schema keeps
exactly the existing schema's field sequence — the merged class's `__slots__`
is the old class's `__slots__` (`inject` passes `og.__slots__` to `type`),
so the bundle's new fields are never appended. -/
theorem C1_merge_keeps_existing_fields (reg : Registry) (name : String)
    (og : RtClass) (b : Bundle) (reg' : Registry) (merged : RtClass)
    (hog : alookup reg name = some og)
    (hinj : inject reg name b = .ok (reg', merged)) :
    merged.slotsAttr = og.slotsAttr := by
  simp only [inject, hog] at hinj
  split at hinj
  · cases hinj
  · simp only [Except.ok.injEq, Prod.mk.injEq] at hinj
    rw [← hinj.2]

/-- Witness for C1: the concrete merge of `bundleYZ` into the registered
schema "A" keeps the field sequence `[x, y]`. -/
theorem C1_merge_keeps_existing_fields_witness :
    alookup regXY "A" = some ogXY ∧ mergedXY.slotsAttr = ogXY.slotsAttr :=
  ⟨rfl, C1_merge_keeps_existing_fields regXY "A" ogXY bundleYZ
    [("A", mergedXY)] mergedXY rfl rfl⟩

/-- C2 counterexample: after extending schema "A" (whose entry has method `m`
with implementation 1) by a bundle also defining `m` (implementation 2),
method dispatch on the merged class finds the existing entry's version 1,
not the bundle's version 2 as the spec claims. -/
theorem C2_counterexample :
    (inject regXY "A" bundleYZ).toOption.map (fun p => methodOf p.2 "m")
      = some (some 1) ∧
    (inject regXY "A" bundleYZ).toOption.map (fun p => methodOf p.2 "m")
      ≠ some (some 2) := by
  constructor
  · rfl
  · decide

/-- C2 (amended): the merged class's behavior set contains the methods of
both, but on a name collision the existing entry's method wins (the old
class precedes the bundle in the merged MRO); bundle methods only become
reachable when the existing entry does not define that name. -/
theorem C2_merge_method_precedence (reg : Registry) (name : String)
    (og : RtClass) (b : Bundle) (reg' : Registry) (merged : RtClass)
    (m : String) (t : Nat)
    (hog : alookup reg name = some og)
    (hinj : inject reg name b = .ok (reg', merged)) :
    (alookup og.methods m = some t → methodOf merged m = some t) ∧
    (alookup og.methods m = none → methodOf merged m = alookup b.methods m) := by
  simp only [inject, hog] at hinj
  split at hinj
  · cases hinj
  · simp only [Except.ok.injEq, Prod.mk.injEq] at hinj
    have hm : merged.methods = og.methods ++ b.methods := by rw [← hinj.2]
    constructor
    · intro h
      unfold methodOf
      rw [hm, alookup_append, h]
    · intro h
      unfold methodOf
      rw [hm, alookup_append, h]

/-- Witness for C2: in the concrete merge, the existing implementation 1 of
`m` wins over the bundle's implementation 2. -/
theorem C2_merge_method_precedence_witness :
    alookup ogXY.methods "m" = some 1 ∧ methodOf mergedXY "m" = some 1 :=
  ⟨rfl, (C2_merge_method_precedence regXY "A" ogXY bundleYZ
    [("A", mergedXY)] mergedXY "m" 1 rfl rfl).1 rfl⟩

/-- C4 counterexample: populating a record of the plain schema `[x]` with the
mapping `\x7b y: 1 \x7d` is not silently accepted — the slot machinery raises
`AttributeError`; likewise a direct `set` of the undeclared field `y`. -/
theorem C4_counterexample :
    construct clsX (.val (.pdict [("y", .pint 1)])) = .error .attributeError ∧
    setattrR { cls := clsX, attrs := [("x", .pnull)] } "y" (.pint 1)
      = .error .attributeError :=
  ⟨rfl, rfl⟩

/-- C4 (amended): unknown-key assignment is governed by the class shape.  On
a class without an instance `__dict__` (every plain-path schema), assigning a
key that is not a slot descriptor — whether through populate or through
`set` — raises `AttributeError`; unknown keys are silently accepted only on
classes whose instances carry a `__dict__` (schemas decorated from bundles
without `__slots__`). -/
theorem C4_unknown_key_behavior (r : Record) (k : String) (v : PVal)
    (P : List (String × PVal)) :
    (r.cls.hasDict = false → r.cls.descs.contains k = false →
        setattrR r k v = .error .attributeError) ∧
    (r.cls.hasDict = true → ∃ r', setattrR r k v = .ok r') ∧
    (r.cls.hasDict = false → (∃ p ∈ P, r.cls.descs.contains p.1 = false) →
        populate r (.val (.pdict P)) = .error .attributeError) ∧
    (r.cls.hasDict = true → ∃ r', populate r (.val (.pdict P)) = .ok r') := by
  refine ⟨?_, ?_, ?_, ?_⟩
  · intro hd hk
    exact setattrR_err r k v hd hk
  · intro hd
    refine ⟨{ r with attrs := aset r.attrs k v }, setattrR_ok r k v ?_⟩
    rw [hd, Bool.or_true]
  · intro hd hbad
    exact assignPairs_err P r hd hbad
  · intro hd
    obtain ⟨r', hr', _⟩ := assignPairs_ok P r (fun p _ => by rw [hd, Bool.or_true])
    exact ⟨r', hr'⟩

/-- Witness for C4: on the slot-only schema `[x]`, setting the undeclared
field `y` raises `AttributeError`. -/
theorem C4_unknown_key_behavior_witness :
    setattrR { cls := clsX, attrs := [] } "y" (.pint 1) = .error .attributeError :=
  (C4_unknown_key_behavior { cls := clsX, attrs := [] } "y" (.pint 1) []).1 rfl rfl

/-- C5: deleting a registered name removes the registry entry, so the
registry lookup `_cache[name]` afterwards fails with `KeyError` (the spec's
NotFound); deleting a name absent from the registry fails with
`AttributeError` (attribute-style NotFound). -/
theorem C5_delete_then_lookup (reg reg2 : Registry) (name : String)
    (cls : RtClass) (hnd : (reg.map Prod.fst).Nodup)
    (hreg : alookup reg name = some cls)
    (h2 : alookup reg2 name = none) :
    factoryDelattr reg name = .ok (aremove reg name) ∧
    cacheGetitem (aremove reg name) name = .error .keyError ∧
    factoryDelattr reg2 name = .error .attributeError := by
  refine ⟨?_, ?_, ?_⟩
  · simp [factoryDelattr, hreg]
  · simp [cacheGetitem, alookup_aremove_self reg name hnd]
  · simp [factoryDelattr, h2]

/-- Witness for C5: deleting "A" from the concrete registry then looking it
up fails with `KeyError`; deleting from the empty registry fails with
`AttributeError`. -/
theorem C5_delete_then_lookup_witness :
    factoryDelattr regXY "A" = .ok (aremove regXY "A") ∧
    cacheGetitem (aremove regXY "A") "A" = .error .keyError ∧
    factoryDelattr ([] : Registry) "A" = .error .attributeError :=
  C5_delete_then_lookup regXY [] "A" ogXY (by decide) rfl rfl

/-- C8: after a first create-path call on an unregistered name has registered
a schema and produced a record, resolving the same name again returns the
cached class itself — so the second call with the same source yields the
identical field sequence, leaves the registry (and hence any attached
behavior) untouched, and constructs an equal record against the cached
class. -/
theorem C8_idempotent_registration (reg0 reg1 : Registry) (name : String)
    (a : Arg) (r1 : Record)
    (h0 : alookup reg0 name = none)
    (h1 : instantiate reg0 name a = (reg1, .ok r1)) :
    ∃ cls, alookup reg1 name = some cls ∧
      factoryGetitem reg1 name = .schema cls ∧
      construct cls a = .ok r1 := by
  unfold instantiate at h1
  cases hg : generate reg0 name a with
  | error e =>
    rw [hg] at h1
    simp only [Prod.mk.injEq] at h1
    cases h1.2
  | ok p =>
    obtain ⟨reg', cls⟩ := p
    rw [hg] at h1
    simp only [Prod.mk.injEq] at h1
    have hreg : reg1 = reg' := h1.1.symm
    have hcon : construct cls a = .ok r1 := h1.2
    have hset := generate_eq reg0 name a reg' cls hg
    refine ⟨cls, ?_, ?_, hcon⟩
    · rw [hreg, hset]
      exact alookup_aset_self reg0 name cls
    · unfold factoryGetitem
      rw [hreg, hset, alookup_aset_self reg0 name cls]

/-- Witness for C8: creating "P" from the mapping with `x`, `y` on an empty
registry, a second resolution returns the cached class with the same field
sequence and the same construction result. -/
theorem C8_idempotent_registration_witness :
    alookup ([] : Registry) "P" = none ∧
    (∃ cls, alookup [("P", clsXY0)] "P" = some cls ∧
      factoryGetitem [("P", clsXY0)] "P" = .schema cls ∧
      construct cls (.val (.pdict [("x", .pint 0), ("y", .pint 0)])) =
        .ok { cls := clsXY0, attrs := [("x", .pint 0), ("y", .pint 0)] }) :=
  ⟨rfl, C8_idempotent_registration [] [("P", clsXY0)] "P"
    (.val (.pdict [("x", .pint 0), ("y", .pint 0)]))
    { cls := clsXY0, attrs := [("x", .pint 0), ("y", .pint 0)] } rfl rfl⟩

/-- C10: invoking the deferred constructor for an unregistered name with a
list of field-name strings (a valid schema source but an invalid population
source) first registers the derived schema and then fails record
construction with the `ValueError` the spec calls InvalidSource — the
registry retains the new entry although no record was produced. -/
theorem C10_register_then_fail (reg : Registry) (name : String)
    (fields : List String) (h0 : alookup reg name = none) :
    factoryGetitem reg name = .deferred name ∧
    ∃ cls, instantiate reg name (.val (.plist (fields.map PVal.pstr)))
        = (aset reg name cls, .error .invalidSource) ∧
      cls.slotsAttr = fields ∧
      alookup (aset reg name cls) name = some cls := by
  constructor
  · unfold factoryGetitem
    rw [h0]
  · refine ⟨{ slotsAttr := fields, descs := fields, hasDict := false,
              methods := [] }, ?_, rfl, alookup_aset_self reg name _⟩
    have hs : valSlots (.plist (fields.map PVal.pstr)) = .ok fields := by
      show valSlotsParsed (.plist (fields.map PVal.pstr)) = .ok fields
      simp only [valSlotsParsed, strList_map_pstr]
    have hg : generate reg name (.val (.plist (fields.map PVal.pstr)))
        = .ok (aset reg name
                 { slotsAttr := fields, descs := fields, hasDict := false,
                   methods := [] },
               { slotsAttr := fields, descs := fields, hasDict := false,
                 methods := [] }) := by
      simp only [generate, hs, okBind]
    simp only [instantiate, hg]
    rfl

/-- Witness for C10: on an empty registry, the deferred constructor for "W"
invoked with `["a", "b"]` registers the schema with fields `a`, `b` and then
raises. -/
theorem C10_register_then_fail_witness :
    alookup ([] : Registry) "W" = none ∧
    (factoryGetitem ([] : Registry) "W" = .deferred "W" ∧
     ∃ cls, instantiate [] "W" (.val (.plist (["a", "b"].map PVal.pstr)))
         = (aset [] "W" cls, .error .invalidSource) ∧
       cls.slotsAttr = ["a", "b"] ∧
       alookup (aset [] "W" cls) "W" = some cls) :=
  ⟨rfl, C10_register_then_fail [] "W" ["a", "b"] rfl⟩

theorem map_fst_pair {β : Type} (l : List String) (g : String → β) :
    (l.map (fun f => (f, g f))).map Prod.fst = l := by
  induction l with
  | nil => rfl
  | cons a tl ih => simp [ih]

theorem assignPairs_lookup_notmem (P : List (String × PVal)) (r r' : Record)
    (h : assignPairs r P = .ok r') (f : String) (hf : f ∉ P.map Prod.fst) :
    alookup r'.attrs f = alookup r.attrs f := by
  induction P generalizing r with
  | nil =>
    simp only [assignPairs, Except.ok.injEq] at h
    subst h
    rfl
  | cons hd tl ih =>
    obtain ⟨k, v⟩ := hd
    have hf1 : f ≠ k := fun hh => hf (by rw [hh]; simp)
    have hf2 : f ∉ tl.map Prod.fst := fun hh => hf (by simp [hh])
    simp only [assignPairs] at h
    cases hset : setattrR r k v with
    | error e => rw [hset] at h; cases h
    | ok r1 =>
      rw [hset] at h
      simp only [okBind] at h
      have hattrs : r1.attrs = aset r.attrs k v := by
        unfold setattrR at hset
        split at hset
        · cases hset; rfl
        · cases hset
      rw [ih r1 h hf2, hattrs,
        alookup_aset_ne r.attrs k f v (fun hh => hf1 hh.symm)]

/-- C7: a record constructed from a mapping whose keys are a (possibly
proper) subset of the declared fields is built without error; `iterate`
enumerates exactly the declared field sequence — every declared field is
present (those not supplied equal null — `None`), no extra key appears in
the enumeration and none disappears, including after further successful
assignments. -/
theorem C7_field_set_invariant (cls : RtClass) (P : List (String × PVal))
    (hslots : ∀ f ∈ cls.slotsAttr, cls.descs.contains f = true)
    (hkeys : ∀ p ∈ P, p.1 ∈ cls.slotsAttr) :
    ∃ r, construct cls (.val (.pdict P)) = .ok r ∧
      (∃ l, iterateR r = .ok l ∧ l.map Prod.fst = cls.slotsAttr) ∧
      (∀ f ∈ cls.slotsAttr, f ∉ P.map Prod.fst → alookup r.attrs f = some .pnull) ∧
      (∀ k v r2, setattrR r k v = .ok r2 →
        ∃ l2, iterateR r2 = .ok l2 ∧ l2.map Prod.fst = cls.slotsAttr) := by
  obtain ⟨r, hr, hc⟩ := construct_pdict_ok cls P
    (fun p hp => by rw [hslots p.1 (hkeys p hp)]; rfl)
    (fun f hf => by rw [hslots f hf]; rfl)
  have hassigned := construct_assigned cls _ r hr
  refine ⟨r, hr, ?_, ?_, ?_⟩
  · have hcanon := iterPairs_canon cls.slotsAttr r.attrs hassigned
    refine ⟨cls.slotsAttr.map (fun f => (f, (alookup r.attrs f).getD .pnull)), ?_, ?_⟩
    · unfold iterateR
      rw [hc]
      exact hcanon
    · exact map_fst_pair _ _
  · intro f hf hnmem
    simp only [construct] at hr
    cases hp : populate { cls := cls, attrs := [] } (.val (.pdict P)) with
    | error e => rw [hp] at hr; cases hr
    | ok r1 =>
      rw [hp] at hr
      simp only [okBind] at hr
      have h1 : alookup r1.attrs f = none :=
        assignPairs_lookup_notmem P { cls := cls, attrs := [] } r1 hp f hnmem
      have h2 := fillMissing_lookup cls.slotsAttr r1 r hr f
      rw [h2, h1]
      simp [hf]
  · intro k v r2 hset
    have hattrs : r2.attrs = aset r.attrs k v := by
      unfold setattrR at hset
      split at hset
      · cases hset; rfl
      · cases hset
    have hc2 : r2.cls = r.cls := setattrR_cls r k v r2 hset
    have hassigned2 : ∀ f ∈ cls.slotsAttr, (alookup r2.attrs f).isSome := by
      intro f hf
      rw [hattrs]
      by_cases hkf : k = f
      · subst hkf; rw [alookup_aset_self]; rfl
      · rw [alookup_aset_ne r.attrs k f v hkf]
        exact hassigned f hf
    have hcanon := iterPairs_canon cls.slotsAttr r2.attrs hassigned2
    refine ⟨cls.slotsAttr.map (fun f => (f, (alookup r2.attrs f).getD .pnull)), ?_, ?_⟩
    · unfold iterateR
      rw [hc2, hc]
      exact hcanon
    · exact map_fst_pair _ _

/-- Witness for C7: constructing the schema `[x, y]` from the proper subset
mapping with only `x` succeeds; iteration enumerates `x, y`, the unsupplied
field `y` is null, and assignment keeps the enumeration at `x, y`. -/
theorem C7_field_set_invariant_witness :
    ∃ r, construct clsXY0 (.val (.pdict [("x", .pint 5)])) = .ok r ∧
      (∃ l, iterateR r = .ok l ∧ l.map Prod.fst = clsXY0.slotsAttr) ∧
      (∀ f ∈ clsXY0.slotsAttr, f ∉ [("x", PVal.pint 5)].map Prod.fst →
        alookup r.attrs f = some .pnull) ∧
      (∀ k v r2, setattrR r k v = .ok r2 →
        ∃ l2, iterateR r2 = .ok l2 ∧ l2.map Prod.fst = clsXY0.slotsAttr) :=
  C7_field_set_invariant clsXY0 [("x", .pint 5)]
    (by decide)
    (by intro p hp; simp at hp; rw [hp]; decide)

/-- C9: `iterate` yields the `(field, value)` pairs exactly in the schema's
declared field order, and the result is independent of the order in which
the construction mapping supplied the fields: constructing from any
permutation of the same field assignments iterates identically. -/
theorem C9_iterate_order (cls : RtClass) (P Q : List (String × PVal))
    (r rq : Record)
    (hnd : (P.map Prod.fst).Nodup) (hperm : P.Perm Q)
    (hp : construct cls (.val (.pdict P)) = .ok r)
    (hq : construct cls (.val (.pdict Q)) = .ok rq) :
    (∃ l, iterateR r = .ok l ∧ l.map Prod.fst = cls.slotsAttr) ∧
    iterateR r = iterateR rq := by
  have hndQ : (Q.map Prod.fst).Nodup := ((hperm.map Prod.fst).nodup_iff).mp hnd
  have hcr : r.cls = cls := construct_cls cls _ r hp
  have hcq : rq.cls = cls := construct_cls cls _ rq hq
  constructor
  · have hassigned := construct_assigned cls _ r hp
    have hcanon := iterPairs_canon cls.slotsAttr r.attrs hassigned
    refine ⟨cls.slotsAttr.map (fun f => (f, (alookup r.attrs f).getD .pnull)), ?_, ?_⟩
    · unfold iterateR
      rw [hcr]
      exact hcanon
    · exact map_fst_pair _ _
  · have hsame : ∀ f ∈ cls.slotsAttr, alookup r.attrs f = alookup rq.attrs f := by
      intro f _
      rw [construct_pdict_lookup cls P r hnd hp f,
        construct_pdict_lookup cls Q rq hndQ hq f,
        alookup_perm P Q hperm hnd f]
    unfold iterateR
    rw [hcr, hcq]
    exact iterPairs_congr cls.slotsAttr r.attrs rq.attrs hsame

/-- Witness for C9: constructing `[x, y]` from the mapping `x, y` and from
the reversed mapping `y, x` iterates identically, in schema order. -/
theorem C9_iterate_order_witness :
    ∃ r rq : Record,
      construct clsXY0 (.val (.pdict [("x", .pint 1), ("y", .pint 2)])) = .ok r ∧
      construct clsXY0 (.val (.pdict [("y", .pint 2), ("x", .pint 1)])) = .ok rq ∧
      (∃ l, iterateR r = .ok l ∧ l.map Prod.fst = clsXY0.slotsAttr) ∧
      iterateR r = iterateR rq := by
  refine ⟨{ cls := clsXY0, attrs := [("x", .pint 1), ("y", .pint 2)] },
          { cls := clsXY0, attrs := [("y", .pint 2), ("x", .pint 1)] },
          rfl, rfl, ?_, ?_⟩
  · exact (C9_iterate_order clsXY0
      [("x", .pint 1), ("y", .pint 2)] [("y", .pint 2), ("x", .pint 1)]
      { cls := clsXY0, attrs := [("x", .pint 1), ("y", .pint 2)] }
      { cls := clsXY0, attrs := [("y", .pint 2), ("x", .pint 1)] }
      (by decide) (by constructor) rfl rfl).1
  · exact (C9_iterate_order clsXY0
      [("x", .pint 1), ("y", .pint 2)] [("y", .pint 2), ("x", .pint 1)]
      { cls := clsXY0, attrs := [("x", .pint 1), ("y", .pint 2)] }
      { cls := clsXY0, attrs := [("y", .pint 2), ("x", .pint 1)] }
      (by decide) (by constructor) rfl rfl).2

/-! ### JSON round-trip: digits and integers -/

@[simp] theorem someBind {α β : Type} (a : α) (f : α → Option β) :
    ((some a : Option α) >>= f) = f a := rfl

theorem digitChar_toNat (d : Nat) (h : d < 10) : (digitChar d).toNat = 48 + d := by
  interval_cases d <;> decide

theorem digitChar_isDigit (d : Nat) (h : d < 10) : isDigit (digitChar d) = true := by
  interval_cases d <;> decide

theorem natDigitsAux_digits (fuel : Nat) : ∀ n, n < fuel →
    ∀ c ∈ natDigitsAux fuel n, isDigit c = true := by
  induction fuel with
  | zero => intro n h; omega
  | succ f ih =>
    intro n h c hc
    simp only [natDigitsAux] at hc
    by_cases h10 : n < 10
    · rw [if_pos h10] at hc
      simp only [List.mem_singleton] at hc
      rw [hc]
      exact digitChar_isDigit n h10
    · rw [if_neg h10] at hc
      rcases List.mem_append.mp hc with h1 | h1
      · exact ih (n / 10) (by omega) c h1
      · simp only [List.mem_singleton] at h1
        rw [h1]
        exact digitChar_isDigit (n % 10) (Nat.mod_lt n (by omega))

theorem natDigitsAux_ne_nil (fuel n : Nat) (h : n < fuel) :
    ∃ c cs, natDigitsAux fuel n = c :: cs := by
  induction fuel generalizing n with
  | zero => omega
  | succ f ih =>
    simp only [natDigitsAux]
    by_cases h10 : n < 10
    · exact ⟨digitChar n, [], by rw [if_pos h10]⟩
    · obtain ⟨c, cs, hc⟩ := ih (n / 10) (by omega)
      exact ⟨c, cs ++ [digitChar (n % 10)], by rw [if_neg h10, hc]; rfl⟩

/-- The head of a rest-list blocks the digit scanner. -/
def noDigitHead : List Char → Prop
  | [] => True
  | c :: _ => isDigit c = false

theorem parseNatLoop_stop (rest : List Char) (acc : Nat) (h : noDigitHead rest) :
    parseNatLoop rest acc = (acc, rest) := by
  cases rest with
  | nil => rfl
  | cons c cs =>
    simp only [noDigitHead] at h
    simp [parseNatLoop, h]

theorem parseNatLoop_digits (ds : List Char) (rest : List Char) (acc : Nat)
    (hds : ∀ c ∈ ds, isDigit c = true) (hrest : noDigitHead rest) :
    parseNatLoop (ds ++ rest) acc =
      (ds.foldl (fun a c => a * 10 + (c.toNat - 48)) acc, rest) := by
  induction ds generalizing acc with
  | nil => simpa using parseNatLoop_stop rest acc hrest
  | cons c cs ih =>
    have hc := hds c (by simp)
    simp only [List.cons_append, parseNatLoop, hc, if_pos, List.foldl_cons]
    exact ih (acc * 10 + (c.toNat - 48)) (fun d hd => hds d (by simp [hd]))

theorem foldl_natDigitsAux (fuel : Nat) : ∀ n acc, n < fuel →
    (natDigitsAux fuel n).foldl (fun a c => a * 10 + (c.toNat - 48)) acc =
      acc * 10 ^ (natDigitsAux fuel n).length + n := by
  induction fuel with
  | zero => intro n acc h; omega
  | succ f ih =>
    intro n acc h
    simp only [natDigitsAux]
    by_cases h10 : n < 10
    · rw [if_pos h10]
      simp [digitChar_toNat n h10]
    · rw [if_neg h10]
      rw [List.foldl_append, ih (n / 10) acc (by omega)]
      simp only [List.foldl_cons, List.foldl_nil, List.length_append,
        List.length_singleton]
      rw [digitChar_toNat (n % 10) (Nat.mod_lt n (by omega))]
      rw [pow_succ, ← mul_assoc]
      have hmod : 48 + n % 10 - 48 = n % 10 := by omega
      rw [hmod]
      generalize acc * 10 ^ (natDigitsAux f (n / 10)).length = X
      omega

theorem parseNatLoop_natDigits (n : Nat) (rest : List Char) (hrest : noDigitHead rest) :
    parseNatLoop (natDigits n ++ rest) 0 = (n, rest) := by
  unfold natDigits
  rw [parseNatLoop_digits _ rest 0 (natDigitsAux_digits (n + 1) n (by omega)) hrest,
    foldl_natDigitsAux (n + 1) n 0 (by omega)]
  simp

theorem isDigit_props (c : Char) (h : isDigit c = true) :
    isWs c = false ∧ c ≠ '-' ∧ c ≠ 'n' ∧ c ≠ 't' ∧ c ≠ 'f' ∧ c ≠ '"' ∧
    c ≠ '[' ∧ c ≠ '\x7b' ∧ c ≠ ']' ∧ c ≠ '\x7d' ∧ c ≠ ',' ∧ c ≠ ':' := by
  simp only [isDigit, Bool.and_eq_true, decide_eq_true_eq] at h
  have hne : ∀ d : Char, c.toNat ≠ d.toNat → c ≠ d := by
    intro d hd he
    exact hd (by rw [he])
  refine ⟨?_, ?_, ?_, ?_, ?_, ?_, ?_, ?_, ?_, ?_, ?_, ?_⟩
  · simp only [isWs, Bool.or_eq_false_iff, decide_eq_false_iff_not]
    refine ⟨⟨⟨?_, ?_⟩, ?_⟩, ?_⟩ <;>
      (intro he; rw [he] at h; revert h; decide)
  all_goals (intro he; rw [he] at h; revert h; decide)

theorem natDigits_head (n : Nat) :
    ∃ c cs, natDigits n = c :: cs ∧ isDigit c = true := by
  obtain ⟨c, cs, hc⟩ := natDigitsAux_ne_nil (n + 1) n (by omega)
  refine ⟨c, cs, hc, ?_⟩
  exact natDigitsAux_digits (n + 1) n (by omega) c (by rw [hc]; simp)

theorem parseInt_rt (i : Int) (rest : List Char) (hrest : noDigitHead rest) :
    parseInt (intChars i ++ rest) = some (i, rest) := by
  cases i with
  | ofNat n =>
    obtain ⟨c, cs, hc, hd⟩ := natDigits_head n
    have hprops := isDigit_props c hd
    simp only [intChars, hc, List.cons_append, parseInt]
    rw [if_neg hprops.2.1, if_pos hd]
    have : parseNatLoop (c :: (cs ++ rest)) 0 = (n, rest) := by
      have := parseNatLoop_natDigits n rest hrest
      rw [hc] at this
      simpa using this
    simp [this]
  | negSucc n =>
    obtain ⟨c, cs, hc, hd⟩ := natDigits_head (n + 1)
    have hloop := parseNatLoop_natDigits (n + 1) rest hrest
    simp only [intChars, List.cons_append, parseInt, if_true]
    rw [hc]
    simp only [List.cons_append]
    rw [if_pos hd]
    rw [show c :: (cs ++ rest) = natDigits (n + 1) ++ rest by simp [hc]]
    rw [hloop]
    simp [Int.negSucc_eq]

/-! ### JSON round-trip: strings -/

theorem hexDigitChar_isHex (m : Nat) (h : m < 16) : isHex (hexDigitChar m) = true := by
  interval_cases m <;> decide

theorem hexVal_hexDigitChar (m : Nat) (h : m < 16) : hexVal (hexDigitChar m) = m := by
  interval_cases m <;> decide

theorem parseStrBody_quote (cs : List Char) :
    parseStrBody ('"' :: cs) = some ([], cs) := by
  rw [parseStrBody.eq_def]
  simp

theorem parseStrBody_esc_quote (cs : List Char) :
    parseStrBody ('\\' :: '"' :: cs) =
      (parseStrBody cs).map (fun p => ('"' :: p.1, p.2)) := by
  rw [parseStrBody.eq_def]
  simp

theorem parseStrBody_esc_backslash (cs : List Char) :
    parseStrBody ('\\' :: '\\' :: cs) =
      (parseStrBody cs).map (fun p => ('\\' :: p.1, p.2)) := by
  rw [parseStrBody.eq_def]
  simp

theorem parseStrBody_esc_n (cs : List Char) :
    parseStrBody ('\\' :: 'n' :: cs) =
      (parseStrBody cs).map (fun p => ('\n' :: p.1, p.2)) := by
  rw [parseStrBody.eq_def]
  simp

theorem parseStrBody_esc_t (cs : List Char) :
    parseStrBody ('\\' :: 't' :: cs) =
      (parseStrBody cs).map (fun p => ('\t' :: p.1, p.2)) := by
  rw [parseStrBody.eq_def]
  simp

theorem parseStrBody_esc_r (cs : List Char) :
    parseStrBody ('\\' :: 'r' :: cs) =
      (parseStrBody cs).map (fun p => ('\r' :: p.1, p.2)) := by
  rw [parseStrBody.eq_def]
  simp

theorem parseStrBody_esc_b (cs : List Char) :
    parseStrBody ('\\' :: 'b' :: cs) =
      (parseStrBody cs).map (fun p => ('\x08' :: p.1, p.2)) := by
  rw [parseStrBody.eq_def]
  simp

theorem parseStrBody_esc_f (cs : List Char) :
    parseStrBody ('\\' :: 'f' :: cs) =
      (parseStrBody cs).map (fun p => ('\x0c' :: p.1, p.2)) := by
  rw [parseStrBody.eq_def]
  simp

theorem parseStrBody_esc_u (h1 h2 h3 h4 : Char) (cs : List Char)
    (hh : (isHex h1 && isHex h2 && isHex h3 && isHex h4) = true) :
    parseStrBody ('\\' :: 'u' :: h1 :: h2 :: h3 :: h4 :: cs) =
      (parseStrBody cs).map (fun p =>
        (Char.ofNat (hexVal h1 * 4096 + hexVal h2 * 256 +
                     hexVal h3 * 16 + hexVal h4) :: p.1, p.2)) := by
  rw [parseStrBody.eq_def]
  simp only [hh]
  simp

theorem parseStrBody_generic (c : Char) (cs : List Char)
    (hq : c ≠ '"') (hb : c ≠ '\\') :
    parseStrBody (c :: cs) =
      (parseStrBody cs).map (fun p => (c :: p.1, p.2)) := by
  rw [parseStrBody.eq_def]
  simp only []
  rw [if_neg hq, if_neg hb]

theorem parseStrBody_escString (s rest : List Char) :
    parseStrBody (escString s ++ '"' :: rest) = some (s, rest) := by
  induction s with
  | nil =>
    show parseStrBody ('"' :: rest) = some ([], rest)
    exact parseStrBody_quote rest
  | cons c tl ih =>
    show parseStrBody ((escChar c ++ escString tl) ++ '"' :: rest) = some (c :: tl, rest)
    rw [List.append_assoc]
    by_cases h1 : c = '"'
    · subst h1
      rw [show escChar '"' = ['\\', '"'] from rfl]
      simp only [List.cons_append, List.nil_append]
      rw [parseStrBody_esc_quote, ih]
      rfl
    by_cases h2 : c = '\\'
    · subst h2
      rw [show escChar '\\' = ['\\', '\\'] from rfl]
      simp only [List.cons_append, List.nil_append]
      rw [parseStrBody_esc_backslash, ih]
      rfl
    by_cases h3 : c = '\n'
    · subst h3
      rw [show escChar '\n' = ['\\', 'n'] from rfl]
      simp only [List.cons_append, List.nil_append]
      rw [parseStrBody_esc_n, ih]
      rfl
    by_cases h4 : c = '\t'
    · subst h4
      rw [show escChar '\t' = ['\\', 't'] from rfl]
      simp only [List.cons_append, List.nil_append]
      rw [parseStrBody_esc_t, ih]
      rfl
    by_cases h5 : c = '\r'
    · subst h5
      rw [show escChar '\r' = ['\\', 'r'] from rfl]
      simp only [List.cons_append, List.nil_append]
      rw [parseStrBody_esc_r, ih]
      rfl
    by_cases h6 : c = '\x08'
    · subst h6
      rw [show escChar '\x08' = ['\\', 'b'] from rfl]
      simp only [List.cons_append, List.nil_append]
      rw [parseStrBody_esc_b, ih]
      rfl
    by_cases h7 : c = '\x0c'
    · subst h7
      rw [show escChar '\x0c' = ['\\', 'f'] from rfl]
      simp only [List.cons_append, List.nil_append]
      rw [parseStrBody_esc_f, ih]
      rfl
    by_cases h8 : c.toNat < 32
    · have hdiv : c.toNat / 16 < 16 := by omega
      have hmod : c.toNat % 16 < 16 := by omega
      have h0 : hexVal '0' = 0 := rfl
      have hdm : c.toNat / 16 * 16 + c.toNat % 16 = c.toNat := by omega
      simp only [escChar, if_neg h1, if_neg h2, if_neg h3, if_neg h4, if_neg h5,
        if_neg h6, if_neg h7, if_pos h8, List.cons_append, List.nil_append]
      rw [parseStrBody_esc_u '0' '0' _ _ _
        (by rw [hexDigitChar_isHex _ hdiv, hexDigitChar_isHex _ hmod]; rfl), ih]
      have hchar : Char.ofNat (hexVal '0' * 4096 + hexVal '0' * 256 +
          hexVal (hexDigitChar (c.toNat / 16)) * 16 +
          hexVal (hexDigitChar (c.toNat % 16))) = c := by
        rw [h0, hexVal_hexDigitChar _ hdiv, hexVal_hexDigitChar _ hmod]
        simp only [Nat.zero_mul, Nat.zero_add]
        rw [hdm, Char.ofNat_toNat]
      simp only [hchar]
      rfl
    · simp only [escChar, if_neg h1, if_neg h2, if_neg h3, if_neg h4, if_neg h5,
        if_neg h6, if_neg h7, if_neg h8, List.cons_append, List.nil_append]
      rw [parseStrBody_generic c _ h1 h2, ih]
      rfl

/-! ### JSON round-trip: whitespace, output shape, sizes -/

theorem skipWs_not (c : Char) (l : List Char) (h : isWs c = false) :
    skipWs (c :: l) = c :: l := by
  simp [skipWs, h]

theorem skipWs_sp (l : List Char) : skipWs (' ' :: l) = skipWs l := by
  simp [skipWs, isWs]

theorem dumpsV_head (v : PVal) (sv : List Char) (h : dumpsV v = some sv) :
    ∃ c cs, sv = c :: cs ∧ isWs c = false ∧ c ≠ ']' ∧ c ≠ '\x7d' := by
  cases v with
  | pnull =>
    simp only [dumpsV, Option.some.injEq] at h
    exact ⟨'n', _, h.symm, by decide, by decide, by decide⟩
  | pbool b =>
    cases b with
    | true =>
      simp only [dumpsV, Option.some.injEq] at h
      exact ⟨'t', _, h.symm, by decide, by decide, by decide⟩
    | false =>
      simp only [dumpsV, Option.some.injEq] at h
      exact ⟨'f', _, h.symm, by decide, by decide, by decide⟩
  | pint n =>
    cases n with
    | ofNat m =>
      simp only [dumpsV, intChars, Option.some.injEq] at h
      obtain ⟨c, cs, hc, hd⟩ := natDigits_head m
      have hp := isDigit_props c hd
      exact ⟨c, cs, by rw [← h, hc], hp.1, hp.2.2.2.2.2.2.2.2.1, hp.2.2.2.2.2.2.2.2.2.1⟩
    | negSucc m =>
      simp only [dumpsV, intChars, Option.some.injEq] at h
      exact ⟨'-', _, h.symm, by decide, by decide, by decide⟩
  | pstr s =>
    simp only [dumpsV, dumpsStr, Option.some.injEq] at h
    exact ⟨'"', _, h.symm, by decide, by decide, by decide⟩
  | plist xs =>
    simp only [dumpsV] at h
    cases hdl : dumpsL xs with
    | none => rw [hdl] at h; cases h
    | some l =>
      rw [hdl] at h
      simp only [Option.map_some', Option.some.injEq] at h
      exact ⟨'[', _, h.symm, by decide, by decide, by decide⟩
  | pdict xs =>
    simp only [dumpsV] at h
    cases hdl : dumpsD xs with
    | none => rw [hdl] at h; cases h
    | some l =>
      rw [hdl] at h
      simp only [Option.map_some', Option.some.injEq] at h
      exact ⟨'\x7b', _, h.symm, by decide, by decide, by decide⟩
  | precord sl fs => cases h

mutual
theorem dumpsV_total (v : PVal) (hj : isJsonV v = true) :
    ∃ sv, dumpsV v = some sv := by
  cases v with
  | pnull => exact ⟨_, rfl⟩
  | pbool b => cases b <;> exact ⟨_, rfl⟩
  | pint n => exact ⟨_, rfl⟩
  | pstr s => exact ⟨_, rfl⟩
  | plist xs =>
    obtain ⟨sl, hsl⟩ := dumpsL_total xs (by simpa [isJsonV] using hj)
    exact ⟨'[' :: (sl ++ [']']), by simp [dumpsV, hsl]⟩
  | pdict xs =>
    obtain ⟨sl, hsl⟩ := dumpsD_total xs (by simpa [isJsonV] using hj)
    exact ⟨'\x7b' :: (sl ++ ['\x7d']), by simp [dumpsV, hsl]⟩
  | precord sl fs => simp [isJsonV] at hj

theorem dumpsL_total (xs : List PVal) (hj : isJsonL xs = true) :
    ∃ sl, dumpsL xs = some sl := by
  cases xs with
  | nil => exact ⟨[], rfl⟩
  | cons v tl =>
    simp only [isJsonL, Bool.and_eq_true] at hj
    obtain ⟨sv, hsv⟩ := dumpsV_total v hj.1
    obtain ⟨stl, hstl⟩ := dumpsL_total tl hj.2
    exact ⟨sv ++ ((if tl.isEmpty = true then [] else [',', ' ']) ++ stl),
      by simp [dumpsL, hsv, hstl]⟩

theorem dumpsD_total (xs : List (String × PVal)) (hj : isJsonD xs = true) :
    ∃ sl, dumpsD xs = some sl := by
  cases xs with
  | nil => exact ⟨[], rfl⟩
  | cons hd tl =>
    obtain ⟨k, v⟩ := hd
    simp only [isJsonD, Bool.and_eq_true] at hj
    obtain ⟨sv, hsv⟩ := dumpsV_total v hj.1.2
    obtain ⟨stl, hstl⟩ := dumpsD_total tl hj.2
    exact ⟨dumpsStr k ++ ':' :: ' ' ::
        (sv ++ ((if tl.isEmpty = true then [] else [',', ' ']) ++ stl)),
      by simp [dumpsD, hsv, hstl]⟩
end

mutual
theorem msizeV_pos (v : PVal) : 0 < msizeV v := by
  cases v with
  | plist xs => have := msizeL_pos xs; simp [msizeV]
  | pdict xs => have := msizeD_pos xs; simp [msizeV]
  | _ => simp [msizeV]

theorem msizeL_pos (xs : List PVal) : 0 < msizeL xs := by
  cases xs with
  | nil => simp [msizeL]
  | cons v tl => have := msizeV_pos v; have := msizeL_pos tl; simp [msizeL]

theorem msizeD_pos (xs : List (String × PVal)) : 0 < msizeD xs := by
  cases xs with
  | nil => simp [msizeD]
  | cons hd tl =>
    obtain ⟨k, v⟩ := hd
    have := msizeV_pos v; have := msizeD_pos tl; simp [msizeD]
end

mutual
theorem msizeV_le (v : PVal) (sv : List Char) (h : dumpsV v = some sv) :
    msizeV v ≤ 2 * sv.length := by
  cases v with
  | pnull =>
    simp only [dumpsV, Option.some.injEq] at h
    rw [← h]
    simp [msizeV]
  | pbool b =>
    cases b <;>
      (simp only [dumpsV, Option.some.injEq] at h; rw [← h]; simp [msizeV])
  | pint n =>
    have hne : sv ≠ [] := by
      cases n with
      | ofNat m =>
        simp only [dumpsV, intChars, Option.some.injEq] at h
        obtain ⟨c, cs, hc, _⟩ := natDigits_head m
        rw [← h, hc]
        simp
      | negSucc m =>
        simp only [dumpsV, intChars, Option.some.injEq] at h
        rw [← h]
        simp
    have : 1 ≤ sv.length := by
      cases sv with
      | nil => exact absurd rfl hne
      | cons c cs => simp
    simp only [msizeV]
    omega
  | pstr s =>
    simp only [dumpsV, dumpsStr, Option.some.injEq] at h
    rw [← h]
    simp [msizeV]
    omega
  | plist xs =>
    simp only [dumpsV] at h
    cases hdl : dumpsL xs with
    | none => rw [hdl] at h; cases h
    | some l =>
      rw [hdl] at h
      simp only [Option.map_some', Option.some.injEq] at h
      have := msizeL_le xs l hdl
      rw [← h]
      simp only [msizeV, List.length_cons, List.length_append,
        List.length_singleton]
      omega
  | pdict xs =>
    simp only [dumpsV] at h
    cases hdl : dumpsD xs with
    | none => rw [hdl] at h; cases h
    | some l =>
      rw [hdl] at h
      simp only [Option.map_some', Option.some.injEq] at h
      have := msizeD_le xs l hdl
      rw [← h]
      simp only [msizeV, List.length_cons, List.length_append,
        List.length_singleton]
      omega
  | precord sl fs => cases h

theorem msizeL_le (xs : List PVal) (sl : List Char) (h : dumpsL xs = some sl) :
    msizeL xs ≤ 2 * sl.length + 3 := by
  cases xs with
  | nil =>
    simp only [dumpsL, Option.some.injEq] at h
    rw [← h]
    simp [msizeL]
  | cons v tl =>
    simp only [dumpsL] at h
    cases hsv : dumpsV v with
    | none => rw [hsv] at h; cases h
    | some sv =>
      rw [hsv] at h
      cases hstl : dumpsL tl with
      | none => rw [hstl] at h; cases h
      | some stl =>
        rw [hstl] at h
        simp only [someBind, Option.pure_def, Option.some.injEq] at h
        have h1 := msizeV_le v sv hsv
        have h2 := msizeL_le tl stl hstl
        rw [← h]
        cases tl with
        | nil =>
          simp only [msizeL, List.isEmpty_nil, List.length_append,
            List.length_nil]
          simp only [msizeL] at h2 ⊢
          omega
        | cons w tl' =>
          simp only [msizeL] at h2 ⊢
          simp only [List.isEmpty_cons, Bool.false_eq_true, if_false,
            List.length_append, List.length_cons]
          omega

theorem msizeD_le (xs : List (String × PVal)) (sl : List Char)
    (h : dumpsD xs = some sl) : msizeD xs ≤ 2 * sl.length + 3 := by
  cases xs with
  | nil =>
    simp only [dumpsD, Option.some.injEq] at h
    rw [← h]
    simp [msizeD]
  | cons hd tl =>
    obtain ⟨k, v⟩ := hd
    simp only [dumpsD] at h
    cases hsv : dumpsV v with
    | none => rw [hsv] at h; cases h
    | some sv =>
      rw [hsv] at h
      cases hstl : dumpsD tl with
      | none => rw [hstl] at h; cases h
      | some stl =>
        rw [hstl] at h
        simp only [someBind, Option.pure_def, Option.some.injEq] at h
        have h1 := msizeV_le v sv hsv
        have h2 := msizeD_le tl stl hstl
        rw [← h]
        cases tl with
        | nil =>
          simp only [msizeD, List.length_append, List.length_cons,
            dumpsStr, List.length_nil]
          simp only [msizeD] at h2 ⊢
          omega
        | cons e tl' =>
          simp only [msizeD] at h2 ⊢
          simp only [List.isEmpty_cons, Bool.false_eq_true, if_false,
            List.length_append, List.length_cons, dumpsStr]
          omega

end

theorem dumpsL_head (v : PVal) (tl : List PVal) (l : List Char)
    (h : dumpsL (v :: tl) = some l) :
    ∃ c cs, l = c :: cs ∧ isWs c = false ∧ c ≠ ']' ∧ c ≠ '\x7d' := by
  simp only [dumpsL] at h
  cases hsv : dumpsV v with
  | none => rw [hsv] at h; cases h
  | some sv =>
    rw [hsv] at h
    cases hstl : dumpsL tl with
    | none => rw [hstl] at h; cases h
    | some stl =>
      rw [hstl] at h
      simp only [someBind, Option.pure_def, Option.some.injEq] at h
      obtain ⟨c, cs, hc, hw, h1, h2⟩ := dumpsV_head v sv hsv
      refine ⟨c, cs ++ ((if tl.isEmpty = true then [] else [',', ' ']) ++ stl),
        ?_, hw, h1, h2⟩
      rw [← h, hc]
      simp

theorem dumpsD_head (e : String × PVal) (tl : List (String × PVal)) (l : List Char)
    (h : dumpsD (e :: tl) = some l) :
    ∃ cs, l = '"' :: cs := by
  obtain ⟨k, v⟩ := e
  simp only [dumpsD] at h
  cases hsv : dumpsV v with
  | none => rw [hsv] at h; cases h
  | some sv =>
    rw [hsv] at h
    cases hstl : dumpsD tl with
    | none => rw [hstl] at h; cases h
    | some stl =>
      rw [hstl] at h
      simp only [someBind, Option.pure_def, Option.some.injEq] at h
      refine ⟨escString k.data ++ ['"'] ++
        (':' :: ' ' :: sv ++ ((if tl.isEmpty = true then [] else [',', ' ']) ++ stl)), ?_⟩
      rw [← h]
      simp [dumpsStr]

mutual
theorem parseVal_rt (v : PVal) (fuel : Nat) (input rest sv : List Char)
    (hd : dumpsV v = some sv) (hf : msizeV v ≤ fuel)
    (hnd : noDigitHead rest)
    (hs : skipWs input = sv ++ rest) :
    parseVal fuel input = some (v, rest) := by
  obtain ⟨f, rfl⟩ : ∃ f, fuel = f + 1 :=
    ⟨fuel - 1, by have := msizeV_pos v; omega⟩
  rw [parseVal.eq_def]
  simp only []
  rw [hs]
  cases v with
  | pnull =>
    simp only [dumpsV, Option.some.injEq] at hd
    subst hd
    simp
  | pbool b =>
    cases b with
    | true =>
      simp only [dumpsV, Option.some.injEq] at hd
      subst hd
      simp
    | false =>
      simp only [dumpsV, Option.some.injEq] at hd
      subst hd
      simp
  | pint n =>
    simp only [dumpsV, Option.some.injEq] at hd
    subst hd
    cases n with
    | ofNat m =>
      obtain ⟨c, cs, hc, hdig⟩ := natDigits_head m
      have hp := isDigit_props c hdig
      rw [show intChars (Int.ofNat m) = c :: cs from by rw [intChars, hc]]
      simp only [List.cons_append]
      rw [if_neg hp.2.2.1, if_neg hp.2.2.2.1, if_neg hp.2.2.2.2.1,
        if_neg hp.2.2.2.2.2.1, if_neg hp.2.2.2.2.2.2.1,
        if_neg hp.2.2.2.2.2.2.2.1]
      rw [if_pos (by rw [hdig, Bool.or_true])]
      have := parseInt_rt (Int.ofNat m) rest hnd
      rw [show intChars (Int.ofNat m) = c :: cs from by rw [intChars, hc],
        List.cons_append] at this
      rw [this]
      rfl
    | negSucc m =>
      rw [show intChars (Int.negSucc m) = '-' :: natDigits (m + 1) from rfl]
      simp only [List.cons_append]
      rw [if_neg (by decide), if_neg (by decide), if_neg (by decide),
        if_neg (by decide), if_neg (by decide), if_neg (by decide)]
      rw [if_pos (by decide)]
      have := parseInt_rt (Int.negSucc m) rest hnd
      rw [show intChars (Int.negSucc m) = '-' :: natDigits (m + 1) from rfl,
        List.cons_append] at this
      rw [this]
      rfl
  | pstr s =>
    simp only [dumpsV, dumpsStr, Option.some.injEq] at hd
    subst hd
    simp only [List.cons_append]
    rw [if_neg (by decide), if_neg (by decide), if_neg (by decide)]
    simp only [if_true]
    rw [show escString s.data ++ ['"'] ++ rest = escString s.data ++ '"' :: rest
      from by simp]
    rw [parseStrBody_escString s.data rest]
    rfl
  | plist xs =>
    simp only [dumpsV] at hd
    cases hdl : dumpsL xs with
    | none => rw [hdl] at hd; cases hd
    | some l =>
      rw [hdl] at hd
      simp only [Option.map_some', Option.some.injEq] at hd
      subst hd
      simp only [List.cons_append]
      rw [if_neg (by decide), if_neg (by decide), if_neg (by decide),
        if_neg (by decide)]
      simp only [if_true]
      cases xs with
      | nil =>
        simp only [dumpsL, Option.some.injEq] at hdl
        subst hdl
        simp only [List.nil_append, List.singleton_append]
        rw [skipWs_not ']' rest (by decide)]
        simp
      | cons x tl =>
        obtain ⟨c, cs, hc, hw, hc1, hc2⟩ := dumpsL_head x tl l hdl
        have hinput : l ++ [']'] ++ rest = l ++ ']' :: rest := by simp
        rw [hinput, hc, List.cons_append, skipWs_not c _ hw]
        have hred : (match c :: (cs ++ ']' :: rest) with
            | [] => none
            | d :: cs' =>
              if d = ']' then some (PVal.plist [], cs')
              else Option.map (fun p => (PVal.plist p.1, p.2))
                (parseItems f (d :: cs')))
            = if c = ']' then some (PVal.plist [], cs ++ ']' :: rest)
              else Option.map (fun p => (PVal.plist p.1, p.2))
                (parseItems f (c :: (cs ++ ']' :: rest))) := rfl
        rw [hred, if_neg hc1]
        rw [← List.cons_append, ← hc]
        rw [parseItems_rt (x :: tl) f (l ++ ']' :: rest) rest l hdl
          (by simp) (by simp only [msizeV] at hf; omega)
          (by rw [hc, List.cons_append, skipWs_not c _ hw])]
        rfl
  | pdict xs =>
    simp only [dumpsV] at hd
    cases hdl : dumpsD xs with
    | none => rw [hdl] at hd; cases hd
    | some l =>
      rw [hdl] at hd
      simp only [Option.map_some', Option.some.injEq] at hd
      subst hd
      simp only [List.cons_append]
      rw [if_neg (by decide), if_neg (by decide), if_neg (by decide),
        if_neg (by decide), if_neg (by decide)]
      simp only [if_true]
      cases xs with
      | nil =>
        simp only [dumpsD, Option.some.injEq] at hdl
        subst hdl
        simp only [List.nil_append, List.singleton_append]
        rw [skipWs_not '\x7d' rest (by decide)]
        simp
      | cons e tl =>
        obtain ⟨cs, hc⟩ := dumpsD_head e tl l hdl
        have hinput : l ++ ['\x7d'] ++ rest = l ++ '\x7d' :: rest := by simp
        rw [hinput, hc, List.cons_append, skipWs_not '"' _ (by decide)]
        have hred : (match '"' :: (cs ++ '\x7d' :: rest) with
            | [] => none
            | d :: cs' =>
              if d = '\x7d' then some (PVal.pdict [], cs')
              else Option.map (fun p => (PVal.pdict p.1, p.2))
                (parseFields f (d :: cs')))
            = if ('"' : Char) = '\x7d' then some (PVal.pdict [], cs ++ '\x7d' :: rest)
              else Option.map (fun p => (PVal.pdict p.1, p.2))
                (parseFields f ('"' :: (cs ++ '\x7d' :: rest))) := rfl
        rw [hred, if_neg (by decide)]
        rw [← List.cons_append, ← hc]
        rw [parseFields_rt (e :: tl) f (l ++ '\x7d' :: rest) rest l hdl
          (by simp) (by simp only [msizeV] at hf; omega)
          (by rw [hc, List.cons_append, skipWs_not '"' _ (by decide)])]
        rfl
  | precord sl fs => cases hd

theorem parseItems_rt (xs : List PVal) (fuel : Nat) (input rest sl : List Char)
    (hd : dumpsL xs = some sl) (hne : xs ≠ []) (hf : msizeL xs ≤ fuel)
    (hs : skipWs input = sl ++ ']' :: rest) :
    parseItems fuel input = some (xs, rest) := by
  obtain ⟨f, rfl⟩ : ∃ f, fuel = f + 1 :=
    ⟨fuel - 1, by have := msizeL_pos xs; omega⟩
  cases xs with
  | nil => exact absurd rfl hne
  | cons v tl =>
    simp only [dumpsL] at hd
    cases hsv : dumpsV v with
    | none => rw [hsv] at hd; cases hd
    | some sv =>
      rw [hsv] at hd
      cases hstl : dumpsL tl with
      | none => rw [hstl] at hd; cases hd
      | some stl =>
        rw [hstl] at hd
        simp only [someBind, Option.pure_def, Option.some.injEq] at hd
        rw [parseItems.eq_def]
        simp only []
        cases tl with
        | nil =>
          simp only [dumpsL, Option.some.injEq] at hstl
          subst hstl
          simp only [List.isEmpty_nil, if_true, List.append_nil] at hd
          rw [parseVal_rt v f input (']' :: rest) sv hsv
            (by simp only [msizeL] at hf; omega)
            (by show isDigit ']' = false; decide)
            (by rw [hs, ← hd])]
          simp only [someBind]
          rw [skipWs_not ']' rest (by decide)]
          simp
        | cons w tl' =>
          simp only [List.isEmpty_cons, Bool.false_eq_true, if_false] at hd
          obtain ⟨c2, cs2, hc2, hw2, hb2, hb3⟩ := dumpsL_head w tl' stl hstl
          rw [parseVal_rt v f input (',' :: ' ' :: (stl ++ ']' :: rest)) sv hsv
            (by simp only [msizeL] at hf; omega)
            (by show isDigit ',' = false; decide)
            (by rw [hs, ← hd]; simp)]
          simp only [someBind]
          rw [skipWs_not ',' _ (by decide)]
          simp only [if_pos rfl]
          rw [parseItems_rt (w :: tl') f (' ' :: (stl ++ ']' :: rest)) rest stl
            hstl (by simp)
            (by simp only [msizeL] at hf ⊢; have := msizeV_pos v; omega)
            (by rw [skipWs_sp, hc2, List.cons_append, skipWs_not c2 _ hw2])]
          rfl

theorem parseFields_rt (xs : List (String × PVal)) (fuel : Nat)
    (input rest sl : List Char)
    (hd : dumpsD xs = some sl) (hne : xs ≠ []) (hf : msizeD xs ≤ fuel)
    (hs : skipWs input = sl ++ '\x7d' :: rest) :
    parseFields fuel input = some (xs, rest) := by
  obtain ⟨f, rfl⟩ : ∃ f, fuel = f + 1 :=
    ⟨fuel - 1, by have := msizeD_pos xs; omega⟩
  cases xs with
  | nil => exact absurd rfl hne
  | cons e tl =>
    obtain ⟨k, v⟩ := e
    simp only [dumpsD] at hd
    cases hsv : dumpsV v with
    | none => rw [hsv] at hd; cases hd
    | some sv =>
      rw [hsv] at hd
      cases hstl : dumpsD tl with
      | none => rw [hstl] at hd; cases hd
      | some stl =>
        rw [hstl] at hd
        simp only [someBind, Option.pure_def, Option.some.injEq] at hd
        rw [parseFields.eq_def]
        simp only []
        rw [hs, ← hd]
        simp only [dumpsStr, List.cons_append, List.append_assoc, List.nil_append,
          if_true]
        rw [parseStrBody_escString]
        simp only [someBind]
        rw [skipWs_not ':' _ (by decide)]
        simp only [if_true]
        cases tl with
        | nil =>
          simp only [dumpsD, Option.some.injEq] at hstl
          subst hstl
          simp only [List.isEmpty_nil, if_true, List.nil_append]
          rw [parseVal_rt v f (' ' :: (sv ++ '\x7d' :: rest)) ('\x7d' :: rest) sv hsv
            (by simp only [msizeD] at hf; omega)
            (by show isDigit '\x7d' = false; decide)
            (by rw [skipWs_sp]
                obtain ⟨c1, cs1, hc1, hw1, _, _⟩ := dumpsV_head v sv hsv
                rw [hc1, List.cons_append, skipWs_not c1 _ hw1])]
          simp only [someBind]
          rw [skipWs_not '\x7d' rest (by decide)]
          simp
        | cons e2 tl' =>
          simp only [List.isEmpty_cons, Bool.false_eq_true, if_false]
          obtain ⟨cs2, hc2⟩ := dumpsD_head e2 tl' stl hstl
          simp only [List.cons_append, List.nil_append]
          rw [parseVal_rt v f
            (' ' :: (sv ++ (',' :: ' ' :: (stl ++ '\x7d' :: rest))))
            (',' :: ' ' :: (stl ++ '\x7d' :: rest)) sv hsv
            (by simp only [msizeD] at hf; omega)
            (by show isDigit ',' = false; decide)
            (by rw [skipWs_sp]
                obtain ⟨c1, cs1, hc1, hw1, _, _⟩ := dumpsV_head v sv hsv
                rw [hc1, List.cons_append, skipWs_not c1 _ hw1])]
          simp only [someBind]
          rw [skipWs_not ',' _ (by decide)]
          simp only [if_true]
          rw [parseFields_rt (e2 :: tl') f (' ' :: (stl ++ '\x7d' :: rest)) rest stl
            hstl (by simp)
            (by simp only [msizeD] at hf ⊢; have := msizeV_pos v; omega)
            (by rw [skipWs_sp, hc2, List.cons_append, skipWs_not '"' _ (by decide)])]
          rfl
end

/-- Full `json.loads ∘ json.dumps` round trip on serializable values. -/
theorem jsonLoads_dumps (v : PVal) (sv : List Char) (hd : dumpsV v = some sv) :
    jsonLoads (String.mk sv) = some v := by
  unfold jsonLoads
  have hdata : (String.mk sv).data = sv := rfl
  rw [hdata]
  obtain ⟨c, cs, hc, hw, _, _⟩ := dumpsV_head v sv hd
  have hrt := parseVal_rt v (2 * sv.length + 2) sv [] sv hd
    (by have := msizeV_le v sv hd; omega) trivial
    (by rw [hc, skipWs_not c _ hw]; simp)
  rw [hrt]
  simp [skipWs]

theorem aset_notmem_append {α : Type} (l : List (String × α)) (k : String) (v : α)
    (h : alookup l k = none) : aset l k v = l ++ [(k, v)] := by
  induction l with
  | nil => rfl
  | cons hd tl ih =>
    obtain ⟨k', v'⟩ := hd
    simp only [alookup_cons] at h
    by_cases hk : k' = k
    · rw [hk] at h; simp at h
    · simp only [aset_cons, if_neg hk, List.cons_append, List.cons.injEq, true_and]
      exact ih (by simpa [hk] using h)

theorem foldl_aset_append (l acc : List (String × PVal))
    (hdisj : ∀ p ∈ l, alookup acc p.1 = none)
    (hnd : (l.map Prod.fst).Nodup) :
    l.foldl (fun d kv => aset d kv.1 kv.2) acc = acc ++ l := by
  induction l generalizing acc with
  | nil => simp
  | cons hd tl ih =>
    obtain ⟨k, v⟩ := hd
    simp only [List.map_cons, List.nodup_cons] at hnd
    simp only [List.foldl_cons]
    rw [aset_notmem_append acc k v (hdisj (k, v) (by simp))]
    rw [ih (acc ++ [(k, v)]) ?_ hnd.2]
    · simp
    · intro p hp
      rw [alookup_append]
      rw [hdisj p (by simp [hp])]
      have hpk : k ≠ p.1 := by
        intro hh
        exact hnd.1 (hh ▸ List.mem_map_of_mem Prod.fst hp)
      simp [alookup, hpk]

theorem dictOf_nodup (l : List (String × PVal)) (hnd : (l.map Prod.fst).Nodup) :
    dictOf l = l := by
  unfold dictOf
  rw [foldl_aset_append l [] (fun p _ => rfl) hnd]
  rfl

theorem alookup_map_pair (slots : List String) (g : String → PVal) (f : String)
    (hf : f ∈ slots) :
    alookup (slots.map (fun s => (s, g s))) f = some (g f) := by
  induction slots with
  | nil => simp at hf
  | cons a tl ih =>
    simp only [List.map_cons, alookup_cons]
    by_cases ha : a = f
    · subst ha; simp
    · rw [if_neg ha]
      exact ih (by rcases List.mem_cons.mp hf with h | h; exact absurd h.symm ha; exact h)

theorem iterPairs_map_fst (slots : List String) (fields : List (String × PVal))
    (l : List (String × PVal)) (h : iterPairs slots fields = .ok l) :
    l.map Prod.fst = slots := by
  induction slots generalizing l with
  | nil =>
    simp only [iterPairs, Except.ok.injEq] at h
    subst h
    rfl
  | cons f tl ih =>
    simp only [iterPairs] at h
    cases halk : alookup fields f with
    | none => rw [halk] at h; cases h
    | some v =>
      rw [halk] at h
      cases hit : iterPairs tl fields with
      | error e => rw [hit] at h; cases h
      | ok l' =>
        rw [hit] at h
        have hl : l = (f, v) :: l' := by
          have h' : (Except.ok ((f, v) :: l') : Except Err (List (String × PVal)))
              = Except.ok l := h
          injection h' with h'
          exact h'.symm
        subst hl
        simp [ih l' hit]

theorem isJsonD_of (pairs : List (String × PVal))
    (hnd : (pairs.map Prod.fst).Nodup)
    (hvals : ∀ p ∈ pairs, isJsonV p.2 = true) : isJsonD pairs = true := by
  induction pairs with
  | nil => rfl
  | cons hd tl ih =>
    obtain ⟨k, v⟩ := hd
    simp only [List.map_cons, List.nodup_cons] at hnd
    have hcont : (tl.map Prod.fst).contains k = false := by
      simpa using hnd.1
    simp only [isJsonD, hcont, Bool.not_false, Bool.true_and]
    rw [hvals (k, v) (by simp), ih hnd.2 (fun p hp => hvals p (by simp [hp]))]
    rfl

theorem dumpsD_record_none (pairs : List (String × PVal))
    (hmem : ∃ f sl2 at2, (f, PVal.precord sl2 at2) ∈ pairs) :
    dumpsD pairs = none := by
  induction pairs with
  | nil => simp at hmem
  | cons hd tl ih =>
    obtain ⟨k, v⟩ := hd
    obtain ⟨f, sl2, at2, hf⟩ := hmem
    rcases List.mem_cons.mp hf with h | h
    · have hv : v = PVal.precord sl2 at2 := by
        injection h with h1 h2
        exact h2.symm
      subst hv
      simp [dumpsD, dumpsV]
    · have := ih ⟨f, sl2, at2, h⟩
      simp only [dumpsD, this]
      cases dumpsV v <;> rfl

/-- C3 counterexample: a record of the schema `[x]` whose field `x` holds a
nested record is constructed fine, but `toText` raises `TypeError`
(`json.dumps` cannot serialize a jsxn instance) instead of recursively
serializing the nested record as the spec claims. -/
theorem C3_counterexample :
    construct clsX (.val (.pdict [("x", .precord ["a"] [("a", .pnull)])]))
      = .ok { cls := clsX, attrs := [("x", .precord ["a"] [("a", .pnull)])] } ∧
    toText { cls := clsX, attrs := [("x", .precord ["a"] [("a", .pnull)])] }
      = .error .typeError :=
  ⟨rfl, rfl⟩

/-- C3 (amended): `toText` renders the record as a JSON object whose keys are
exactly the declared fields in declared order and whose values are the
current field values — whenever every field value is JSON-serializable data;
but a field value that is itself a Record causes `json.dumps` to raise
`TypeError` rather than being recursively serialized. -/
theorem C3_serialization (r : Record) (pairs : List (String × PVal))
    (hnd : r.cls.slotsAttr.Nodup)
    (hit : iterateR r = .ok pairs) :
    ((∀ p ∈ pairs, isJsonV p.2 = true) →
      ∃ s, toText r = .ok s ∧ jsonLoads s = some (.pdict pairs) ∧
        pairs.map Prod.fst = r.cls.slotsAttr) ∧
    ((∃ f sl2 at2, (f, PVal.precord sl2 at2) ∈ pairs) →
      toText r = .error .typeError) := by
  have hkeys : pairs.map Prod.fst = r.cls.slotsAttr :=
    iterPairs_map_fst _ _ _ hit
  have hndp : (pairs.map Prod.fst).Nodup := by rw [hkeys]; exact hnd
  have hdict : dictOf pairs = pairs := dictOf_nodup pairs hndp
  constructor
  · intro hvals
    have hjd : isJsonD pairs = true := isJsonD_of pairs hndp hvals
    obtain ⟨sl, hsl⟩ := dumpsD_total pairs hjd
    have hdump : dumpsV (.pdict pairs) = some ('\x7b' :: (sl ++ ['\x7d'])) := by
      simp [dumpsV, hsl]
    refine ⟨String.mk ('\x7b' :: (sl ++ ['\x7d'])), ?_, ?_, hkeys⟩
    · unfold toText
      rw [hit]
      simp only [okBind]
      rw [hdict, hdump]
    · exact jsonLoads_dumps (.pdict pairs) _ hdump
  · intro hmem
    have hnone : dumpsD pairs = none := dumpsD_record_none pairs hmem
    unfold toText
    rw [hit]
    simp only [okBind]
    rw [hdict]
    simp [dumpsV, hnone]

/-- Witness for C3: the record `x = 1, y = null` of the schema `[x, y]`
serializes to a JSON object which parses back to exactly its field pairs in
declared order. -/
theorem C3_serialization_witness :
    ∃ s, toText { cls := clsXY0, attrs := [("x", .pint 1), ("y", .pnull)] } = .ok s ∧
      jsonLoads s = some (.pdict [("x", .pint 1), ("y", .pnull)]) ∧
      ([("x", PVal.pint 1), ("y", PVal.pnull)].map Prod.fst
        = clsXY0.slotsAttr) :=
  (C3_serialization { cls := clsXY0, attrs := [("x", .pint 1), ("y", .pnull)] }
    [("x", .pint 1), ("y", .pnull)] (by decide) rfl).1 (by decide)

/-- C6: serializing a record whose field values are JSON-representable data
and populating a fresh instance of the same schema with the produced text
restores every field value. -/
theorem C6_round_trip (cls : RtClass) (r : Record) (hc : r.cls = cls)
    (hnd : cls.slotsAttr.Nodup)
    (hdesc : ∀ f ∈ cls.slotsAttr, cls.descs.contains f = true)
    (hvals : ∀ f ∈ cls.slotsAttr,
      ∃ v, alookup r.attrs f = some v ∧ isJsonV v = true) :
    ∃ s r', toText r = .ok s ∧ construct cls (.val (.pstr s)) = .ok r' ∧
      ∀ f ∈ cls.slotsAttr, alookup r'.attrs f = alookup r.attrs f := by
  have hassigned : ∀ f ∈ cls.slotsAttr, (alookup r.attrs f).isSome := by
    intro f hf
    obtain ⟨v, hv, _⟩ := hvals f hf
    rw [hv]
    rfl
  have hit : iterateR r =
      .ok (cls.slotsAttr.map (fun f => (f, (alookup r.attrs f).getD .pnull))) := by
    unfold iterateR
    rw [hc]
    exact iterPairs_canon cls.slotsAttr r.attrs hassigned
  set pairs := cls.slotsAttr.map (fun f => (f, (alookup r.attrs f).getD .pnull))
    with hpairs
  have hkeys : pairs.map Prod.fst = cls.slotsAttr := map_fst_pair _ _
  have hndp : (pairs.map Prod.fst).Nodup := by rw [hkeys]; exact hnd
  have hdict : dictOf pairs = pairs := dictOf_nodup pairs hndp
  have hvalsp : ∀ p ∈ pairs, isJsonV p.2 = true := by
    intro p hp
    rw [hpairs] at hp
    obtain ⟨f, hf, hpf⟩ := List.mem_map.mp hp
    obtain ⟨v, hv, hj⟩ := hvals f hf
    rw [← hpf]
    simpa [hv] using hj
  have hjd : isJsonD pairs = true := isJsonD_of pairs hndp hvalsp
  obtain ⟨sl, hsl⟩ := dumpsD_total pairs hjd
  have hdump : dumpsV (.pdict pairs) = some ('\x7b' :: (sl ++ ['\x7d'])) := by
    simp [dumpsV, hsl]
  have htext : toText r = .ok (String.mk ('\x7b' :: (sl ++ ['\x7d']))) := by
    unfold toText
    rw [hit]
    simp only [okBind]
    rw [hdict, hdump]
  have hload : jsonLoads (String.mk ('\x7b' :: (sl ++ ['\x7d'])))
      = some (.pdict pairs) := jsonLoads_dumps (.pdict pairs) _ hdump
  have hr0 : ({ cls := cls, attrs := [] } : Record).cls = cls := rfl
  obtain ⟨r1, hr1, hc1⟩ := assignPairs_ok pairs { cls := cls, attrs := [] }
    (fun p hp => by
      rw [hr0, hdesc p.1 (by rw [← hkeys]; exact List.mem_map_of_mem Prod.fst hp)]
      rfl)
  obtain ⟨r', hr', hc'⟩ := fillMissing_ok cls.slotsAttr r1
    (fun f hf => by rw [hc1, hr0, hdesc f hf]; rfl)
  have hlook1 := assignPairs_lookup pairs { cls := cls, attrs := [] } r1 hndp hr1
  have hlook2 := fillMissing_lookup cls.slotsAttr r1 r' hr'
  refine ⟨String.mk ('\x7b' :: (sl ++ ['\x7d'])), r', htext, ?_, ?_⟩
  · unfold construct
    simp only [populate, hload, hr1, okBind]
    exact hr'
  · intro f hf
    obtain ⟨v, hv, _⟩ := hvals f hf
    have hpf : alookup pairs f = some v := by
      rw [hpairs]
      rw [alookup_map_pair cls.slotsAttr _ f hf, hv]
      rfl
    rw [hlook2 f, hlook1 f, hpf, hv]

/-- Witness for C6: a concrete record of the schema `[x, y]` holding a string
with characters needing escapes and a nested list round-trips through its
JSON text into an equal fresh record. -/
theorem C6_round_trip_witness :
    ∃ s r',
      toText ({ cls := clsXY0,
                attrs := [("x", .pstr "a\"b"),
                          ("y", .plist [.pnull, .pint (-3)])] } : Record) = .ok s ∧
      construct clsXY0 (.val (.pstr s)) = .ok r' ∧
      ∀ f ∈ clsXY0.slotsAttr, alookup r'.attrs f =
        alookup [("x", PVal.pstr "a\"b"),
                 ("y", PVal.plist [PVal.pnull, PVal.pint (-3)])] f :=
  C6_round_trip clsXY0
    { cls := clsXY0, attrs := [("x", .pstr "a\"b"),
                               ("y", .plist [.pnull, .pint (-3)])] }
    rfl (by decide) (by decide)
    (by
      intro f hf
      rcases (show f = "x" ∨ f = "y" by simpa [clsXY0] using hf) with h | h <;>
        (subst h; exact ⟨_, rfl, rfl⟩))

end Jsxn
